import Mathlib

/-
Verification of the terrier query-execution core against its specification.

The definitions below are shallow embeddings of the repository's C++ source:
 * src/src/execution/compiler/compiler.cpp        (Compiler: MakePipelines, GenMainFunction, GenStateStruct)
 * src/src/execution/compiler/compilation_context.cpp (CompilationContext::GeneratePlan)
 * src/src/include/execution/vm/bytecodes.h       (BYTECODE_LIST, Bytecode enum, kBytecodeCount)
 * src/src/include/catalog/catalog_sql_table.h    (SqlTableRW::SetColInRow, ColToValueVec)
 * src/src/execution/sql/table_vector_iterator.cpp (TableVectorIterator::Advance)
plus spec-modelled definitions (marked in their doc comments) for components of
the repository whose implementation files are not part of the source snapshot
(the BwTree index and the MVCC visibility machinery, section 4.6/4.7 of the spec).
-/

set_option maxRecDepth 8000

namespace Terrier

/-! ## Plan nodes and pipeline construction (compiler.cpp) -/

/-- PlanNodeType cases that Compiler::MakePipelines distinguishes
(plan_node_defs.h): AGGREGATE, ORDERBY, HASHJOIN, NESTLOOP, and the default
case with one child (for example PROJECTION, LIMIT) or zero children (for
example SEQSCAN). -/
inductive PlanNode : Type
  | aggregate (child : PlanNode)
  | orderby (child : PlanNode)
  | hashjoin (lhs rhs : PlanNode)
  | nestloop (lhs rhs : PlanNode)
  | unary (child : PlanNode)
  | leaf
  deriving DecidableEq, Repr

/-- Role of an operator translator created by TranslatorFactory: bottom/top for
AGGREGATE and ORDERBY breakers, left/right for HASHJOIN and NESTLOOP, regular
for the default case, output for the OutputTranslator added by the Compiler
constructor. -/
inductive Role : Type
  | bottom
  | top
  | left
  | right
  | regular
  | output
  deriving DecidableEq, Repr

/-- Translator object, identified by the tree path of the plan node it was
created for together with its role. -/
structure Translator : Type where
  path : List Nat
  role : Role
  deriving DecidableEq, Repr

/-- Compiler::MakePipelines (compiler.cpp lines 123-170), in state-passing
form: curr is the contents of the current pipeline, acc the pipelines vector
pushed so far; p is the path of the node op inside the plan tree. Returns the
updated current pipeline and pipelines vector. -/
def makePipelines : PlanNode → List Nat → List Translator → List (List Translator) →
    (List Translator × List (List Translator))
  | PlanNode.aggregate c, p, curr, acc =>
      let r := makePipelines c (p ++ [0]) [] acc
      (curr ++ [⟨p, Role.top⟩], r.2 ++ [r.1 ++ [⟨p, Role.bottom⟩]])
  | PlanNode.orderby c, p, curr, acc =>
      let r := makePipelines c (p ++ [0]) [] acc
      (curr ++ [⟨p, Role.top⟩], r.2 ++ [r.1 ++ [⟨p, Role.bottom⟩]])
  | PlanNode.hashjoin l r, p, curr, acc =>
      let r1 := makePipelines l (p ++ [0]) [] acc
      let r2 := makePipelines r (p ++ [1]) curr (r1.2 ++ [r1.1 ++ [⟨p, Role.left⟩]])
      (r2.1 ++ [⟨p, Role.right⟩], r2.2)
  | PlanNode.nestloop l r, p, curr, acc =>
      let r1 := makePipelines l (p ++ [0]) curr acc
      let r2 := makePipelines r (p ++ [1]) (r1.1 ++ [⟨p, Role.left⟩]) r1.2
      (r2.1 ++ [⟨p, Role.right⟩], r2.2)
  | PlanNode.unary c, p, curr, acc =>
      let r := makePipelines c (p ++ [0]) curr acc
      (r.1 ++ [⟨p, Role.regular⟩], r.2)
  | PlanNode.leaf, p, curr, acc => (curr ++ [⟨p, Role.regular⟩], acc)

/-- Contents of the current pipeline produced by MakePipelines when started on
an empty pipeline, written as a structural recursion; the theorem
makePipelines_eq below proves it agrees with makePipelines. -/
def mpCurr : PlanNode → List Nat → List Translator
  | PlanNode.aggregate _, p => [⟨p, Role.top⟩]
  | PlanNode.orderby _, p => [⟨p, Role.top⟩]
  | PlanNode.hashjoin _ r, p => mpCurr r (p ++ [1]) ++ [⟨p, Role.right⟩]
  | PlanNode.nestloop l r, p =>
      mpCurr l (p ++ [0]) ++ ([⟨p, Role.left⟩] ++ (mpCurr r (p ++ [1]) ++ [⟨p, Role.right⟩]))
  | PlanNode.unary c, p => mpCurr c (p ++ [0]) ++ [⟨p, Role.regular⟩]
  | PlanNode.leaf, p => [⟨p, Role.regular⟩]

/-- Pipelines pushed to the pipelines vector by MakePipelines when started on
an empty pipelines vector, written as a structural recursion; the theorem
makePipelines_eq below proves it agrees with makePipelines. -/
def mpAcc : PlanNode → List Nat → List (List Translator)
  | PlanNode.aggregate c, p =>
      mpAcc c (p ++ [0]) ++ [mpCurr c (p ++ [0]) ++ [⟨p, Role.bottom⟩]]
  | PlanNode.orderby c, p =>
      mpAcc c (p ++ [0]) ++ [mpCurr c (p ++ [0]) ++ [⟨p, Role.bottom⟩]]
  | PlanNode.hashjoin l r, p =>
      mpAcc l (p ++ [0]) ++ ([mpCurr l (p ++ [0]) ++ [⟨p, Role.left⟩]] ++ mpAcc r (p ++ [1]))
  | PlanNode.nestloop l r, p => mpAcc l (p ++ [0]) ++ mpAcc r (p ++ [1])
  | PlanNode.unary c, p => mpAcc c (p ++ [0])
  | PlanNode.leaf, _ => []

/-- MakePipelines only appends: on arbitrary curr and acc it extends them by
mpCurr and mpAcc respectively. -/
theorem makePipelines_eq : ∀ (n : PlanNode) (p : List Nat) (curr : List Translator)
    (acc : List (List Translator)),
    makePipelines n p curr acc = (curr ++ mpCurr n p, acc ++ mpAcc n p) := by
  intro n
  induction n with
  | aggregate c ih =>
      intro p curr acc
      simp only [makePipelines, mpCurr, mpAcc, ih, List.nil_append, List.append_assoc]
  | orderby c ih =>
      intro p curr acc
      simp only [makePipelines, mpCurr, mpAcc, ih, List.nil_append, List.append_assoc]
  | hashjoin l r ihl ihr =>
      intro p curr acc
      simp only [makePipelines, mpCurr, mpAcc, ihl, ihr, List.nil_append, List.append_assoc]
  | nestloop l r ihl ihr =>
      intro p curr acc
      simp only [makePipelines, mpCurr, mpAcc, ihl, ihr, List.nil_append, List.append_assoc]
  | unary c ih =>
      intro p curr acc
      simp only [makePipelines, mpCurr, mpAcc, ih, List.nil_append, List.append_assoc]
  | leaf =>
      intro p curr acc
      simp [makePipelines, mpCurr, mpAcc]

/-- Compiler constructor (compiler.cpp lines 9-23): runs MakePipelines on the
plan with a fresh main pipeline, adds an OutputTranslator to the main pipeline
when the plan has an output schema, and finally pushes the main pipeline, so
the main pipeline is the last entry of the pipelines vector. -/
def compilerPipelines (plan : PlanNode) (hasOutputSchema : Bool) : List (List Translator) :=
  let r := makePipelines plan [] [] []
  let mainPipeline := if hasOutputSchema then r.1 ++ [⟨[], Role.output⟩] else r.1
  r.2 ++ [mainPipeline]

/-! ## Emitted main function (compiler.cpp GenMainFunction, compilation_context.cpp GeneratePlan) -/

/-- Statements of the emitted IR that the main functions consist of. -/
inductive Stmt : Type
  | declareVar (name : String)
  | callFn (name : String)
  | returnVal (v : Int)
  deriving DecidableEq, Repr

/-- Name of the function emitted for the pipeline with the given index
(Pipeline::Produce receives pipeline_idx; spec section 4.1 names them
pipeline_i). -/
def pipelineName (idx : Nat) : String := "pipeline" ++ toString idx

/-- Compiler::GenMainFunction (compiler.cpp lines 92-121): declares the state
variable, calls the setup function, calls every pipeline function in the order
of the pipelines vector, calls the teardown function, and then emits
Return (IntLiteral 37) - the source comment says a value of 0, the emitted
literal is 37. -/
def genMainFunction (pipelines : List (List Translator)) : List Stmt :=
  [Stmt.declareVar "state", Stmt.callFn "setupFn"]
    ++ (List.range pipelines.length).map (fun i => Stmt.callFn (pipelineName i))
    ++ [Stmt.callFn "teardownFn", Stmt.returnVal 37]

/-- CompilationContext::GeneratePlan step 5 (compilation_context.cpp lines
75-111): the older single-produce-function code path declares the query state,
calls init, calls the one produce function, calls teardown and returns 0. -/
def generatePlanMain : List Stmt :=
  [Stmt.declareVar "queryState", Stmt.callFn "init", Stmt.callFn "produce",
   Stmt.callFn "teardown", Stmt.returnVal 0]

/-! ## State struct (compiler.cpp GenStateStruct) -/

/-- Builtin type kinds used by the generated state struct fields. -/
inductive BuiltinKind : Type
  | int32
  | other (tag : String)
  deriving DecidableEq, Repr

/-- Field declaration of the generated query-state struct. -/
structure FieldDecl : Type where
  name : String
  kind : BuiltinKind
  deriving DecidableEq, Repr

/-- Compiler::GenStateStruct (compiler.cpp lines 62-69): appends a dummy field
named DUMMY of builtin type Int32 to the operator-registered fields before
declaring the struct, so the struct always has at least one field. -/
def genStateStruct (fields : List FieldDecl) : List FieldDecl :=
  fields ++ [⟨"DUMMY", BuiltinKind.int32⟩]

/-! ## Claim C1 -/

/-- C1: the emitted main function declares the local state, calls setup, calls
each pipeline function in pipeline order and calls teardown as the claim says,
but the final statement emitted by Compiler::GenMainFunction is a return of
the integer literal 37, not 0 (compiler.cpp line 119, under the comment
saying a value of 0). Evaluated here at the failing input: a single-leaf plan
with an output schema. -/
theorem genMainFunction_returns_37 :
    genMainFunction (compilerPipelines PlanNode.leaf true) =
      [Stmt.declareVar "state", Stmt.callFn "setupFn", Stmt.callFn "pipeline0",
       Stmt.callFn "teardownFn", Stmt.returnVal 37] ∧
    generatePlanMain.getLast? = some (Stmt.returnVal 0) := by
  constructor
  · rfl
  · rfl

/-! ## Claim C9 -/

/-- C9: for every list of operator-registered fields, GenStateStruct appends
exactly one trailing field named DUMMY of builtin type Int32 after all of
them, so the generated query-state struct is never empty. -/
theorem genStateStruct_dummy_field (fields : List FieldDecl) :
    genStateStruct fields ≠ [] ∧
    (genStateStruct fields).length = fields.length + 1 ∧
    (genStateStruct fields).take fields.length = fields ∧
    (genStateStruct fields).getLast? = some ⟨"DUMMY", BuiltinKind.int32⟩ := by
  refine ⟨by simp [genStateStruct], by simp [genStateStruct], ?_, ?_⟩
  · simp [genStateStruct]
  · simp [genStateStruct]

/-! ## TableVectorIterator (execution/sql/table_vector_iterator.cpp) -/

/-- Slot contents of a data table as seen by the scanning transaction: an
opaque row payload together with its visibility. Slots appear in
block-then-offset order; the position one past the final slot is the end
iterator. -/
structure DataTable : Type where
  slots : List (Int × Bool)
  deriving DecidableEq, Repr

/-- Modelled from the spec: storage::SqlTable::Scan is not under src/; per
spec section 4.6 it populates a projected-columns buffer with up to its
capacity of visible rows in one call, walking slots in order. Returns the
batch of visible rows collected and the number of slots consumed. -/
def scanCollect : List (Int × Bool) → Nat → (List Int × Nat)
  | [], _ => ([], 0)
  | s :: rest, cap =>
      if cap = 0 then ([], 0)
      else if s.2 then
        let r := scanCollect rest (cap - 1)
        (s.1 :: r.1, r.2 + 1)
      else
        let r := scanCollect rest cap
        (r.1, r.2 + 1)

/-- Capacity of the projected-columns buffer used by
TableVectorIterator::Init (kDefaultVectorSize). -/
def kDefaultVectorSize : Nat := 2048

/-- State of a TableVectorIterator: the initialized flag set by Init, the slot
iterator position, the projected-columns buffer and the PCI attachment. The
member initialized is false on construction. -/
structure TableVectorIterator : Type where
  initialized : Bool
  iterPos : Nat
  projectedColumns : List Int
  pciView : Option (List Int)
  deriving DecidableEq, Repr

/-- TableVectorIterator constructor (table_vector_iterator.cpp lines 12-13):
the initialized flag starts false and no scan state exists yet. -/
def tviNew : TableVectorIterator := ⟨false, 0, [], none⟩

/-- TableVectorIterator::Init (table_vector_iterator.cpp lines 17-32): sets up
the projected-columns buffer, marks the iterator initialized, starts the slot
iterator at the table's begin, and returns true. -/
def tviInit (tvi : TableVectorIterator) : Bool × TableVectorIterator :=
  (true, { tvi with initialized := true, iterPos := 0 })

/-- TableVectorIterator::Advance (table_vector_iterator.cpp lines 34-44):
returns false when not initialized; otherwise returns false when the slot
iterator equals the table's end, and otherwise scans the next batch of
visible rows into the projected-columns buffer, points the PCI at it, and
returns true. -/
def tviAdvance (t : DataTable) (tvi : TableVectorIterator) : Bool × TableVectorIterator :=
  if tvi.initialized = false then (false, tvi)
  else if tvi.iterPos = t.slots.length then (false, tvi)
  else
    let r := scanCollect (t.slots.drop tvi.iterPos) kDefaultVectorSize
    (true,
     { tvi with
        iterPos := tvi.iterPos + r.2
        projectedColumns := r.1
        pciView := some r.1 })

/-! ## Claim C10 -/

/-- C10: Advance called on an uninitialized iterator returns false, leaves the
iterator untouched and does not access the table (its result is the same for
every table); after Init, Advance returns false exactly when the slot
iterator sits at the table's end, and otherwise scans a batch, points the PCI
at the scanned projected-columns buffer, and returns true. -/
theorem tviAdvance_contract (t : DataTable) (tvi : TableVectorIterator) :
    (tvi.initialized = false →
      tviAdvance t tvi = (false, tvi) ∧ ∀ u : DataTable, tviAdvance u tvi = tviAdvance t tvi)
    ∧ (tvi.initialized = true →
        (((tviAdvance t tvi).1 = false) ↔ tvi.iterPos = t.slots.length)
        ∧ (tvi.iterPos ≠ t.slots.length →
            (tviAdvance t tvi).1 = true
            ∧ (tviAdvance t tvi).2.pciView = some (tviAdvance t tvi).2.projectedColumns
            ∧ (tviAdvance t tvi).2.projectedColumns
                = (scanCollect (t.slots.drop tvi.iterPos) kDefaultVectorSize).1)) := by
  constructor
  · intro h
    constructor
    · simp [tviAdvance, h]
    · intro u
      simp [tviAdvance, h]
  · intro h
    constructor
    · by_cases hpos : tvi.iterPos = t.slots.length
      · simp [tviAdvance, h, hpos]
      · simp [tviAdvance, h, hpos]
    · intro hpos
      refine ⟨?_, ?_, ?_⟩
      · simp [tviAdvance, h, hpos]
      · simp [tviAdvance, h, hpos]
      · simp [tviAdvance, h, hpos]

/-- Witness for C10 at a concrete uninitialized iterator and a one-slot
table. -/
theorem tviAdvance_contract_witness :
    tviNew.initialized = false ∧ tviAdvance ⟨[(5, true)]⟩ tviNew = (false, tviNew) :=
  ⟨rfl, ((tviAdvance_contract ⟨[(5, true)]⟩ tviNew).1 rfl).1⟩

/-! ## SqlTableRW row encoding (include/catalog/catalog_sql_table.h) -/

/-- SQL type identifiers handled by SqlTableRW (type/type_id.h). -/
inductive TypeId : Type
  | boolean
  | smallint
  | integer
  | bigint
  | varchar
  deriving DecidableEq, Repr

/-- TransientValue: a tagged SQL value, possibly NULL at a given type
(type/transient_value.h). -/
inductive TransientValue : Type
  | null (ty : TypeId)
  | boolean (b : Bool)
  | smallint (v : Int)
  | integer (v : Int)
  | bigint (v : Int)
  | varchar (s : String)
  deriving DecidableEq, Repr

/-- Modelled from the spec: storage::VarlenEntry is not under src/; per spec
section 3 a varlen entry is either inline (at most threshold bytes, stored in
place) or indirected with an ownership flag. Create(ptr, size, own) yields the
indirected form and CreateInline the inline form, both preserving the
content. -/
inductive VarlenEntry : Type
  | inline (content : String)
  | indirect (content : String) (owned : Bool)
  deriving DecidableEq, Repr

/-- Content bytes reachable from a varlen entry (VarlenEntry::Content). -/
def VarlenEntry.content : VarlenEntry → String
  | VarlenEntry.inline s => s
  | VarlenEntry.indirect s _ => s

/-- Storage cell of one column of a projected row: either NULL (null-bitmap
bit cleared) or the raw value bytes written at the column offset, tagged by
their width. -/
inductive Cell : Type
  | null
  | int8 (v : Int)
  | int16 (v : Int)
  | int32 (v : Int)
  | int64 (v : Int)
  | varlen (e : VarlenEntry)
  deriving DecidableEq, Repr

/-- SqlTableRW::SetColInRow (catalog_sql_table.h lines 161-210): NULL values
set the null bit; BOOLEAN stores an int8, INTEGER an int32, BIGINT an int64;
VARCHAR stores an indirected owned varlen entry when longer than the inline
threshold and an inline entry otherwise. Every other type, SMALLINT included,
falls into the default switch case and writes nothing. -/
def setColInRow (threshold : Nat) (projRow : List Cell) (colNum : Nat)
    (value : TransientValue) : List Cell :=
  match value with
  | TransientValue.null _ => projRow.set colNum Cell.null
  | TransientValue.boolean b => projRow.set colNum (Cell.int8 (if b then 1 else 0))
  | TransientValue.integer v => projRow.set colNum (Cell.int32 v)
  | TransientValue.bigint v => projRow.set colNum (Cell.int64 v)
  | TransientValue.varchar s =>
      if s.length > threshold then
        projRow.set colNum (Cell.varlen (VarlenEntry.indirect s true))
      else
        projRow.set colNum (Cell.varlen (VarlenEntry.inline s))
  | TransientValue.smallint _ => projRow

/-- Modelled from the spec: storage::ProjectedRowInitializer::InitializeRow is
not under src/; a freshly initialized projected row has every attribute NULL
(the per-row null bitmap of spec section 3 starts cleared), so
AccessWithNullCheck returns null for columns never written. -/
def initializeRow (schema : List TypeId) : List Cell :=
  schema.map (fun _ => Cell.null)

/-- Loop body of SqlTableRW::InsertRow (catalog_sql_table.h lines 308-320):
SetColInRow is applied to columns 0, 1, ... with the corresponding row
values. -/
def insertRowLoop (threshold : Nat) : List Cell → Nat → List TransientValue → List Cell
  | projRow, _, [] => projRow
  | projRow, i, v :: rest => insertRowLoop threshold (setColInRow threshold projRow i v) (i + 1) rest

/-- SqlTableRW::InsertRow: writes every value of the row into a freshly
initialized projected row. -/
def insertRow (threshold : Nat) (schema : List TypeId) (row : List TransientValue) : List Cell :=
  insertRowLoop threshold (initializeRow schema) 0 row

/-- Per-column read performed by SqlTableRW::ColToValueVec (catalog_sql_table.h
lines 436-487): a cleared null bit yields GetNull(type); otherwise the cell
bytes are reinterpreted at the schema column type. A cell whose stored width
does not match the schema type would reinterpret unrelated bytes; such reads
never arise for rows written through SetColInRow at matching types and are
mapped to NULL here. -/
def readCol (ty : TypeId) (cell : Cell) : TransientValue :=
  match cell with
  | Cell.null => TransientValue.null ty
  | Cell.int8 v =>
      match ty with
      | TypeId.boolean => TransientValue.boolean (if v = 0 then false else true)
      | _ => TransientValue.null ty
  | Cell.int16 v =>
      match ty with
      | TypeId.smallint => TransientValue.smallint v
      | _ => TransientValue.null ty
  | Cell.int32 v =>
      match ty with
      | TypeId.integer => TransientValue.integer v
      | _ => TransientValue.null ty
  | Cell.int64 v =>
      match ty with
      | TypeId.bigint => TransientValue.bigint v
      | _ => TransientValue.null ty
  | Cell.varlen e =>
      match ty with
      | TypeId.varchar => TransientValue.varchar e.content
      | _ => TransientValue.null ty

/-- Loop of SqlTableRW::ColToValueVec over the columns of the row view,
reading column i at offset i. -/
def colToValueVecLoop : List TypeId → Nat → List Cell → List TransientValue
  | [], _, _ => []
  | ty :: rest, i, projRow =>
      readCol ty (projRow.getD i Cell.null) :: colToValueVecLoop rest (i + 1) projRow

/-- SqlTableRW::ColToValueVec: converts a row view back into a vector of
transient values, one per schema column. -/
def colToValueVec (schema : List TypeId) (projRow : List Cell) : List TransientValue :=
  colToValueVecLoop schema 0 projRow

/-- Check that a transient value is well typed at a schema column type (a NULL
carries its own type tag, which must agree). -/
def valueMatches : TypeId → TransientValue → Bool
  | ty, TransientValue.null ty2 => ty2 == ty
  | TypeId.boolean, TransientValue.boolean _ => true
  | TypeId.smallint, TransientValue.smallint _ => true
  | TypeId.integer, TransientValue.integer _ => true
  | TypeId.bigint, TransientValue.bigint _ => true
  | TypeId.varchar, TransientValue.varchar _ => true
  | _, _ => false

/-- Check for a non-NULL SMALLINT value, the case SetColInRow silently
drops. -/
def isNonNullSmallint : TransientValue → Bool
  | TransientValue.smallint _ => true
  | _ => false

/-- Cell written by SetColInRow for a value, none when the switch falls into
the default case and writes nothing. -/
def cellWritten (threshold : Nat) : TransientValue → Option Cell
  | TransientValue.null _ => some Cell.null
  | TransientValue.boolean b => some (Cell.int8 (if b then 1 else 0))
  | TransientValue.integer v => some (Cell.int32 v)
  | TransientValue.bigint v => some (Cell.int64 v)
  | TransientValue.varchar s =>
      some (Cell.varlen
        (if s.length > threshold then VarlenEntry.indirect s true else VarlenEntry.inline s))
  | TransientValue.smallint _ => none

theorem setColInRow_eq (threshold : Nat) (projRow : List Cell) (colNum : Nat)
    (v : TransientValue) :
    setColInRow threshold projRow colNum v =
      match cellWritten threshold v with
      | some c => projRow.set colNum c
      | none => projRow := by
  cases v with
  | varchar s =>
      by_cases h : s.length > threshold <;> simp [setColInRow, cellWritten, h]
  | _ => rfl

theorem setColInRow_length (threshold : Nat) (projRow : List Cell) (colNum : Nat)
    (v : TransientValue) :
    (setColInRow threshold projRow colNum v).length = projRow.length := by
  rw [setColInRow_eq]
  cases cellWritten threshold v <;> simp

theorem insertRowLoop_length (threshold : Nat) :
    ∀ (row : List TransientValue) (projRow : List Cell) (i : Nat),
    (insertRowLoop threshold projRow i row).length = projRow.length := by
  intro row
  induction row with
  | nil => intro projRow i; rfl
  | cons v rest ih =>
      intro projRow i
      rw [insertRowLoop, ih, setColInRow_eq]
      cases cellWritten threshold v <;> simp

theorem insertRowLoop_getElem_lt (threshold : Nat) :
    ∀ (row : List TransientValue) (projRow : List Cell) (i k : Nat), k < i →
    (insertRowLoop threshold projRow i row)[k]? = projRow[k]? := by
  intro row
  induction row with
  | nil => intro projRow i k _; rfl
  | cons v rest ih =>
      intro projRow i k hk
      rw [insertRowLoop, ih _ _ _ (Nat.lt_succ_of_lt hk), setColInRow_eq]
      cases cellWritten threshold v with
      | none => rfl
      | some c => exact List.getElem?_set_ne (Nat.ne_of_gt hk)

theorem insertRowLoop_getElem (threshold : Nat) :
    ∀ (row : List TransientValue) (projRow : List Cell) (i j : Nat)
      (hj : j < row.length), i + row.length ≤ projRow.length →
    (insertRowLoop threshold projRow i row)[i + j]? =
      match cellWritten threshold (row.get ⟨j, hj⟩) with
      | some c => some c
      | none => projRow[i + j]? := by
  intro row
  induction row with
  | nil => intro projRow i j hj; exact absurd hj (Nat.not_lt_zero j)
  | cons v rest ih =>
      intro projRow i j hj hrange
      cases j with
      | zero =>
          simp only [Nat.add_zero]
          rw [insertRowLoop, insertRowLoop_getElem_lt threshold rest _ _ _ (Nat.lt_succ_self i),
            setColInRow_eq]
          have hi : i < projRow.length := by
            have := hrange
            simp only [List.length_cons] at this
            omega
          have hget : (v :: rest).get ⟨0, hj⟩ = v := rfl
          rw [hget]
          cases hcw : cellWritten threshold v with
          | none => rfl
          | some c =>
              rw [List.getElem?_set_self]
              exact hi
      | succ j2 =>
          have hj2 : j2 < rest.length := by
            simp only [List.length_cons] at hj
            omega
          have heq : i + (j2 + 1) = (i + 1) + j2 := by omega
          rw [insertRowLoop, heq]
          have hrange2 : (i + 1) + rest.length ≤ (setColInRow threshold projRow i v).length := by
            rw [setColInRow_length]
            simp only [List.length_cons] at hrange
            omega
          rw [ih _ _ _ hj2 hrange2]
          have hget : (v :: rest).get ⟨j2 + 1, hj⟩ = rest.get ⟨j2, hj2⟩ := rfl
          rw [hget]
          cases cellWritten threshold (rest.get ⟨j2, hj2⟩) with
          | some c => rfl
          | none =>
              rw [setColInRow_eq]
              cases cellWritten threshold v with
              | none => rfl
              | some c =>
                  exact List.getElem?_set_ne (by omega)

theorem colToValueVecLoop_length :
    ∀ (schema : List TypeId) (i : Nat) (projRow : List Cell),
    (colToValueVecLoop schema i projRow).length = schema.length := by
  intro schema
  induction schema with
  | nil => intro i projRow; rfl
  | cons ty rest ih =>
      intro i projRow
      simp [colToValueVecLoop, ih]

theorem colToValueVecLoop_get :
    ∀ (schema : List TypeId) (i : Nat) (projRow : List Cell) (k : Nat)
      (hk : k < schema.length)
      (hk2 : k < (colToValueVecLoop schema i projRow).length),
    (colToValueVecLoop schema i projRow).get ⟨k, hk2⟩ =
      readCol (schema.get ⟨k, hk⟩) (projRow.getD (i + k) Cell.null) := by
  intro schema
  induction schema with
  | nil => intro i projRow k hk; exact absurd hk (Nat.not_lt_zero k)
  | cons ty rest ih =>
      intro i projRow k hk hk2
      cases k with
      | zero => simp [colToValueVecLoop]
      | succ k2 =>
          have hk2a : k2 < rest.length := by
            simp only [List.length_cons] at hk
            omega
          have heq : i + (k2 + 1) = (i + 1) + k2 := by omega
          simp only [colToValueVecLoop, List.get_cons_succ, heq]
          exact ih (i + 1) projRow k2 hk2a _

/-- Round trip of a single well-typed non-smallint value through the cell
written for it. -/
theorem readCol_cellWritten (threshold : Nat) (ty : TypeId) (v : TransientValue)
    (hty : valueMatches ty v = true) (hsm : isNonNullSmallint v = false)
    (c : Cell) (hc : cellWritten threshold v = some c) :
    readCol ty c = v := by
  cases v with
  | null ty2 =>
      have : ty2 = ty := by
        cases ty <;> cases ty2 <;> simp_all [valueMatches]
      subst this
      simp only [cellWritten, Option.some.injEq] at hc
      subst hc
      rfl
  | boolean b =>
      have : ty = TypeId.boolean := by cases ty <;> simp_all [valueMatches]
      subst this
      simp only [cellWritten, Option.some.injEq] at hc
      subst hc
      cases b <;> rfl
  | smallint v2 => simp [isNonNullSmallint] at hsm
  | integer v2 =>
      have : ty = TypeId.integer := by cases ty <;> simp_all [valueMatches]
      subst this
      simp only [cellWritten, Option.some.injEq] at hc
      subst hc
      rfl
  | bigint v2 =>
      have : ty = TypeId.bigint := by cases ty <;> simp_all [valueMatches]
      subst this
      simp only [cellWritten, Option.some.injEq] at hc
      subst hc
      rfl
  | varchar s =>
      have : ty = TypeId.varchar := by cases ty <;> simp_all [valueMatches]
      subst this
      simp only [cellWritten, Option.some.injEq] at hc
      subst hc
      by_cases h : s.length > threshold <;> simp [readCol, VarlenEntry.content, h]

/-! ## Claim C7 -/

/-- C7 counterexample: SetColInRow silently drops non-NULL SMALLINT values
(its switch has no SMALLINT case and falls into default: break), so a
one-column SMALLINT row does not survive the encode-decode round trip: it
decodes to NULL instead of the value 5. -/
theorem smallint_row_not_round_tripped :
    colToValueVec [TypeId.smallint]
        (insertRow 12 [TypeId.smallint] [TransientValue.smallint 5])
      = [TransientValue.null TypeId.smallint]
    ∧ colToValueVec [TypeId.smallint]
        (insertRow 12 [TypeId.smallint] [TransientValue.smallint 5])
      ≠ [TransientValue.smallint 5] := by
  refine ⟨rfl, ?_⟩
  decide

/-- C7 amended: for rows of well-typed values over the supported SQL types,
excluding non-NULL SMALLINT (which SetColInRow does not write), decoding the
encoded row returns the original row, and every VARCHAR column is stored
inline exactly when its length is at most the inline threshold, and otherwise
as an indirected entry with the ownership flag set. -/
theorem row_round_trip (threshold : Nat) (schema : List TypeId)
    (row : List TransientValue) (hlen : schema.length = row.length)
    (hty : ∀ (k : Nat) (hk : k < row.length) (hk2 : k < schema.length),
      valueMatches (schema.get ⟨k, hk2⟩) (row.get ⟨k, hk⟩) = true)
    (hsm : ∀ v ∈ row, isNonNullSmallint v = false) :
    colToValueVec schema (insertRow threshold schema row) = row
    ∧ ∀ (k : Nat) (hk : k < row.length) (s : String),
        row.get ⟨k, hk⟩ = TransientValue.varchar s →
        (insertRow threshold schema row)[k]? =
          some (Cell.varlen
            (if s.length > threshold then VarlenEntry.indirect s true
             else VarlenEntry.inline s)) := by
  have hinitlen : (initializeRow schema).length = schema.length := by
    simp [initializeRow]
  have hrange : 0 + row.length ≤ (initializeRow schema).length := by
    rw [hinitlen, hlen]
    omega
  have hcell : ∀ (k : Nat) (hk : k < row.length),
      (insertRow threshold schema row)[k]? =
        match cellWritten threshold (row.get ⟨k, hk⟩) with
        | some c => some c
        | none => some Cell.null := by
    intro k hk
    have h0 := insertRowLoop_getElem threshold row (initializeRow schema) 0 k hk hrange
    simp only [Nat.zero_add] at h0
    rw [insertRow, h0]
    have hkin : k < (initializeRow schema).length := by omega
    have : (initializeRow schema)[k]? = some Cell.null := by
      rw [List.getElem?_eq_getElem hkin]
      simp [initializeRow]
    rw [this]
  constructor
  · apply List.ext_get
    · simp only [colToValueVec]
      rw [colToValueVecLoop_length, hlen]
    · intro k hk1 hk2
      have hks : k < schema.length := by
        simp only [colToValueVec] at hk1
        rw [colToValueVecLoop_length] at hk1
        exact hk1
      simp only [colToValueVec] at hk1 ⊢
      rw [colToValueVecLoop_get schema 0 _ k hks hk1]
      simp only [Nat.zero_add]
      have hcw := hcell k hk2
      have hv := hty k hk2 hks
      have hs := hsm (row.get ⟨k, hk2⟩) (List.get_mem row k hk2)
      cases hc : cellWritten threshold (row.get ⟨k, hk2⟩) with
      | none =>
          exfalso
          cases hvv : row.get ⟨k, hk2⟩ with
          | smallint v2 =>
              rw [hvv] at hs
              simp [isNonNullSmallint] at hs
          | null ty2 =>
              rw [hvv] at hc
              simp [cellWritten] at hc
          | boolean b =>
              rw [hvv] at hc
              simp [cellWritten] at hc
          | integer v2 =>
              rw [hvv] at hc
              simp [cellWritten] at hc
          | bigint v2 =>
              rw [hvv] at hc
              simp [cellWritten] at hc
          | varchar s =>
              rw [hvv] at hc
              simp [cellWritten] at hc
      | some c =>
          rw [hc] at hcw
          have : (insertRow threshold schema row).getD k Cell.null = c := by
            simp [List.getD, hcw]
          rw [this]
          exact readCol_cellWritten threshold _ _ hv hs c hc
  · intro k hk s hvs
    have hcw := hcell k hk
    rw [hvs] at hcw
    simpa [cellWritten] using hcw

/-- Witness for C7 amended at a concrete row covering NULL, BOOLEAN, INTEGER,
BIGINT and VARCHAR on both sides of the inline threshold 3. -/
theorem row_round_trip_witness :
    colToValueVec
        [TypeId.boolean, TypeId.integer, TypeId.bigint, TypeId.varchar, TypeId.varchar,
         TypeId.smallint]
        (insertRow 3
          [TypeId.boolean, TypeId.integer, TypeId.bigint, TypeId.varchar, TypeId.varchar,
           TypeId.smallint]
          [TransientValue.boolean true, TransientValue.integer (-7), TransientValue.bigint 123,
           TransientValue.varchar "ab", TransientValue.varchar "abcde",
           TransientValue.null TypeId.smallint])
      = [TransientValue.boolean true, TransientValue.integer (-7), TransientValue.bigint 123,
         TransientValue.varchar "ab", TransientValue.varchar "abcde",
         TransientValue.null TypeId.smallint] :=
  (row_round_trip 3
    [TypeId.boolean, TypeId.integer, TypeId.bigint, TypeId.varchar, TypeId.varchar,
     TypeId.smallint]
    [TransientValue.boolean true, TransientValue.integer (-7), TransientValue.bigint 123,
     TransientValue.varchar "ab", TransientValue.varchar "abcde",
     TransientValue.null TypeId.smallint]
    (by decide)
    (by decide)
    (by decide)).1

/-! ## Bytecode enumeration (include/execution/vm/bytecodes.h) -/

/-- CREATE_FOR_INT_TYPES (bytecodes.h lines 13-21): instantiates an opcode for
every integer primitive type tag, in declaration order. -/
def createForIntTypes (op : String) : List String :=
  ["i8", "i16", "i32", "i64", "u8", "u16", "u32", "u64"].map (fun t => op ++ "_" ++ t)

/-- CREATE_FOR_FLOAT_TYPES (bytecodes.h lines 24-26): instantiates an opcode
for the two floating-point primitive type tags. -/
def createForFloatTypes (op : String) : List String :=
  ["f32", "f64"].map (fun t => op ++ "_" ++ t)

/-- BYTECODE_LIST (bytecodes.h lines 40-381): the master list of all bytecode
names, in the order the macro generates them. -/
def bytecodeList : List String :=
  createForIntTypes "Add"
  ++ createForIntTypes "Neg"
  ++ createForIntTypes "Sub"
  ++ createForIntTypes "Mul"
  ++ createForIntTypes "Div"
  ++ createForIntTypes "Rem"
  ++ createForIntTypes "BitAnd"
  ++ createForIntTypes "BitOr"
  ++ createForIntTypes "BitXor"
  ++ createForIntTypes "BitNeg"
  ++ createForIntTypes "GreaterThan"
  ++ createForIntTypes "GreaterThanEqual"
  ++ createForIntTypes "Equal"
  ++ createForIntTypes "LessThan"
  ++ createForIntTypes "LessThanEqual"
  ++ createForIntTypes "NotEqual"
  ++ [ "Not", "Jump", "JumpIfTrue", "JumpIfFalse", "IsNullPtr",
      "IsNotNullPtr", "Deref1", "Deref2", "Deref4", "Deref8",
      "DerefN", "Assign1", "Assign2", "Assign4", "Assign8",
      "AssignImm1", "AssignImm2", "AssignImm4", "AssignImm8", "AssignImm4F",
      "AssignImm8F", "Lea", "LeaScaled", "Call", "Return",
      "ExecutionContextGetMemoryPool", "ThreadStateContainerInit", "ThreadStateContainerIterate", "ThreadStateContainerReset", "ThreadStateContainerFree",
      "TableVectorIteratorInit", "TableVectorIteratorPerformInit", "TableVectorIteratorNext", "TableVectorIteratorFree", "TableVectorIteratorGetPCI",
      "ParallelScanTable", "PCIIsFiltered", "PCIHasNext", "PCIHasNextFiltered", "PCIAdvance",
      "PCIAdvanceFiltered", "PCIMatch", "PCIReset", "PCIResetFiltered", "PCIGetSmallInt",
      "PCIGetInteger", "PCIGetBigInt", "PCIGetReal", "PCIGetDouble", "PCIGetDecimal",
      "PCIGetDate", "PCIGetVarlen", "PCIGetSmallIntNull", "PCIGetIntegerNull", "PCIGetBigIntNull",
      "PCIGetRealNull", "PCIGetDoubleNull", "PCIGetDecimalNull", "PCIGetDateNull", "PCIGetVarlenNull",
      "PCIFilterEqual", "PCIFilterGreaterThan", "PCIFilterGreaterThanEqual", "PCIFilterLessThan", "PCIFilterLessThanEqual",
      "PCIFilterNotEqual", "FilterManagerInit", "FilterManagerStartNewClause", "FilterManagerInsertFlavor", "FilterManagerFinalize",
      "FilterManagerRunFilters", "FilterManagerFree", "ForceBoolTruth", "InitBool", "InitInteger",
      "InitReal", "InitDate", "InitString", "InitVarlen", "LessThanInteger",
      "LessThanEqualInteger", "GreaterThanInteger", "GreaterThanEqualInteger", "EqualInteger", "NotEqualInteger",
      "LessThanReal", "LessThanEqualReal", "GreaterThanReal", "GreaterThanEqualReal", "EqualReal",
      "NotEqualReal", "LessThanString", "LessThanEqualString", "GreaterThanString", "GreaterThanEqualString",
      "EqualString", "NotEqualString", "AbsInteger", "AbsReal", "ValIsNull",
      "ValIsNotNull", "AddInteger", "SubInteger", "MulInteger", "DivInteger",
      "RemInteger", "AddReal", "SubReal", "MulReal", "DivReal",
      "RemReal", "HashInt", "HashReal", "HashString", "HashCombine",
      "AggregationHashTableInit", "AggregationHashTableInsert", "AggregationHashTableLookup", "AggregationHashTableProcessBatch", "AggregationHashTableTransferPartitions",
      "AggregationHashTableParallelPartitionedScan", "AggregationHashTableFree", "AggregationHashTableIteratorInit", "AggregationHashTableIteratorHasNext", "AggregationHashTableIteratorNext",
      "AggregationHashTableIteratorGetRow", "AggregationHashTableIteratorFree", "AggregationOverflowPartitionIteratorHasNext", "AggregationOverflowPartitionIteratorNext", "AggregationOverflowPartitionIteratorGetHash",
      "AggregationOverflowPartitionIteratorGetRow", "CountAggregateInit", "CountAggregateAdvance", "CountAggregateMerge", "CountAggregateReset",
      "CountAggregateGetResult", "CountAggregateFree", "CountStarAggregateInit", "CountStarAggregateAdvance", "CountStarAggregateMerge",
      "CountStarAggregateReset", "CountStarAggregateGetResult", "CountStarAggregateFree", "IntegerSumAggregateInit", "IntegerSumAggregateAdvance",
      "IntegerSumAggregateMerge", "IntegerSumAggregateReset", "IntegerSumAggregateGetResult", "IntegerSumAggregateFree", "IntegerMaxAggregateInit",
      "IntegerMaxAggregateAdvance", "IntegerMaxAggregateMerge", "IntegerMaxAggregateReset", "IntegerMaxAggregateGetResult", "IntegerMaxAggregateFree",
      "IntegerMinAggregateInit", "IntegerMinAggregateAdvance", "IntegerMinAggregateMerge", "IntegerMinAggregateReset", "IntegerMinAggregateGetResult",
      "IntegerMinAggregateFree", "AvgAggregateInit", "AvgAggregateAdvance", "AvgAggregateMerge", "AvgAggregateReset",
      "AvgAggregateGetResult", "AvgAggregateFree", "RealSumAggregateInit", "RealSumAggregateAdvance", "RealSumAggregateMerge",
      "RealSumAggregateReset", "RealSumAggregateGetResult", "RealSumAggregateFree", "RealMaxAggregateInit", "RealMaxAggregateAdvance",
      "RealMaxAggregateMerge", "RealMaxAggregateReset", "RealMaxAggregateGetResult", "RealMaxAggregateFree", "RealMinAggregateInit",
      "RealMinAggregateAdvance", "RealMinAggregateMerge", "RealMinAggregateReset", "RealMinAggregateGetResult", "RealMinAggregateFree",
      "JoinHashTableInit", "JoinHashTableAllocTuple", "JoinHashTableIterInit", "JoinHashTableIterHasNext", "JoinHashTableIterGetRow",
      "JoinHashTableIterClose", "JoinHashTableBuild", "JoinHashTableBuildParallel", "JoinHashTableFree", "SorterInit",
      "SorterAllocTuple", "SorterAllocTupleTopK", "SorterAllocTupleTopKFinish", "SorterSort", "SorterSortParallel",
      "SorterSortTopKParallel", "SorterFree", "SorterIteratorInit", "SorterIteratorGetRow", "SorterIteratorHasNext",
      "SorterIteratorNext", "SorterIteratorFree", "OutputAlloc", "OutputAdvance", "OutputFinalize",
      "OutputSetNull", "Insert", "IndexIteratorInit", "IndexIteratorScanKey", "IndexIteratorFree",
      "IndexIteratorAdvance", "IndexIteratorGetSmallInt", "IndexIteratorGetInteger", "IndexIteratorGetBigInt", "IndexIteratorGetDecimal",
      "IndexIteratorGetReal", "IndexIteratorGetDouble", "IndexIteratorGetSmallIntNull", "IndexIteratorGetIntegerNull", "IndexIteratorGetBigIntNull",
      "IndexIteratorGetDecimalNull", "IndexIteratorGetRealNull", "IndexIteratorGetDoubleNull", "Pi", "E",
      "Acos", "Asin", "Atan", "Atan2", "Cos",
      "Cot", "Sin", "Tan", "Cosh", "Tanh",
      "Sinh", "Sqrt", "Cbrt", "Exp", "Ceil",
      "Floor", "Truncate", "Ln", "Log2", "Log10",
      "Sign", "Radians", "Degrees", "Round", "RoundUpTo",
      "Log", "Pow", "Left", "Length", "Lower",
      "LPad", "LTrim", "Repeat", "Reverse", "Right",
      "RPad", "RTrim", "SplitPart", "Substring", "Trim",
      "Upper"]

/-- Value assigned by DECLARE_OP to the opcode at a given position of
BYTECODE_LIST: the enum lists them in order starting at 0, so the value is
the list index. -/
def bytecodeValueAt (i : Nat) : Option String := bytecodeList[i]?

/-- Bytecode::Last (bytecodes.h line 391): declared as -1 followed by one +1
per COUNT_OP entry of BYTECODE_LIST, so its value is the number of opcodes
minus one - which is the value of the final declared opcode, not one past
it. -/
def bytecodeLast : Int := -1 + (bytecodeList.length : Int)

/-- Bytecodes::kBytecodeCount (bytecodes.h line 403):
static_cast<u32>(Bytecode::Last) + 1. -/
def kBytecodeCount : Nat := bytecodeLast.toNat + 1

/-! ## Claim C8 -/

/-- C8 counterexample: the final declared opcode Upper has enum value 398,
which equals Bytecode::Last rather than being strictly below it, so Last is
not one past the final opcode. -/
theorem bytecode_last_not_past_final :
    bytecodeValueAt 398 = some "Upper"
    ∧ bytecodeLast = 398
    ∧ ¬ ((398 : Int) < bytecodeLast) := by
  refine ⟨rfl, rfl, ?_⟩
  decide

/-- C8 amended: Bytecode::Last equals the value of the final declared opcode
(every declared opcode value v satisfies v ≤ Last, with equality at the final
one), and kBytecodeCount equals the number of entries generated by
BYTECODE_LIST. -/
theorem bytecode_sentinel (v : Nat) (h : v < bytecodeList.length) :
    (v : Int) ≤ bytecodeLast
    ∧ kBytecodeCount = bytecodeList.length
    ∧ (bytecodeValueAt v).isSome = true
    ∧ bytecodeList.length = 399 := by
  have hlen : bytecodeList.length = 399 := by decide
  refine ⟨?_, by decide, ?_, hlen⟩
  · rw [hlen] at h
    simp only [bytecodeLast, hlen]
    omega
  · simp only [bytecodeValueAt]
    rw [List.getElem?_eq_getElem h]
    rfl

/-- Witness for the amended C8 at opcode value 0. -/
theorem bytecode_sentinel_witness :
    (0 : Nat) < bytecodeList.length
    ∧ ((0 : Nat) : Int) ≤ bytecodeLast :=
  ⟨by decide, (bytecode_sentinel 0 (by decide)).1⟩

/-! ## BwTree index range scans (spec section 4.7) -/

/-- Modelled from the spec: the BwTree index implementation is not under src/
(only its test is). An index entry maps a packed key to a tuple slot; a
populated index holds its committed entries in ascending key order (the index
is an ordered map). -/
structure IndexEntry : Type where
  key : Int
  slot : Nat
  deriving DecidableEq, Repr

/-- Inclusive range check of the scan bounds (spec: bounds [lo, hi] are
inclusive). -/
def inRange (lo hi : Int) (e : IndexEntry) : Bool :=
  decide (lo ≤ e.key ∧ e.key ≤ hi)

/-- Modelled from the spec: ScanAscending(lo, hi) yields the slots of the
entries whose keys lie in the inclusive range, in index order (ascending by
key). -/
def scanAscending (entries : List IndexEntry) (lo hi : Int) : List Nat :=
  (entries.filter (inRange lo hi)).map IndexEntry.slot

/-- Modelled from the spec: ScanDescending yields the same set of slots in
descending key order. -/
def scanDescending (entries : List IndexEntry) (lo hi : Int) : List Nat :=
  (scanAscending entries lo hi).reverse

/-- Modelled from the spec: ScanLimitAscending yields at most limit results in
ascending order. -/
def scanLimitAscending (entries : List IndexEntry) (lo hi : Int) (limit : Nat) : List Nat :=
  (scanAscending entries lo hi).take limit

/-- Modelled from the spec: ScanLimitDescending yields at most limit results
in descending order. -/
def scanLimitDescending (entries : List IndexEntry) (lo hi : Int) (limit : Nat) : List Nat :=
  (scanDescending entries lo hi).take limit

/-- Index with the even keys 0..20, slot i for key 2i, as populated by the
ScanAscending/ScanDescending tests (bwtree_index_test.cpp lines 257-321). -/
def evenKeyIndex : List IndexEntry :=
  (List.range 11).map (fun i => ⟨Int.ofNat (2 * i), i⟩)

theorem evenKeyIndex_scans :
    scanAscending evenKeyIndex 8 12 = [4, 5, 6]
    ∧ scanAscending evenKeyIndex 7 13 = [4, 5, 6]
    ∧ scanDescending evenKeyIndex 8 12 = [6, 5, 4]
    ∧ scanLimitAscending evenKeyIndex 8 12 2 = [4, 5]
    ∧ scanLimitDescending evenKeyIndex (-1) 5 2 = [2, 1] := by
  refine ⟨?_, ?_, ?_, ?_, ?_⟩ <;> rfl

/-! ## Claim C2 -/

/-- C2: over an index of committed entries sorted by key, ScanAscending
returns exactly the slots whose keys lie in the inclusive range [lo, hi]
(both bounds included), in ascending key order; ScanDescending returns the
reverse of that list, in descending key order; and the limit variants return
at most limit results forming a prefix of the corresponding full scan. -/
theorem scan_ordering_contract (entries : List IndexEntry) (lo hi : Int) (limit : Nat)
    (hs : (entries.map IndexEntry.key).Sorted (· ≤ ·)) :
    (∀ s, s ∈ scanAscending entries lo hi ↔
        ∃ e ∈ entries, lo ≤ e.key ∧ e.key ≤ hi ∧ e.slot = s)
    ∧ ((entries.filter (inRange lo hi)).map IndexEntry.key).Sorted (· ≤ ·)
    ∧ scanDescending entries lo hi = (scanAscending entries lo hi).reverse
    ∧ (((entries.filter (inRange lo hi)).map IndexEntry.key).reverse).Sorted (· ≥ ·)
    ∧ (scanLimitAscending entries lo hi limit).length ≤ limit
    ∧ scanLimitAscending entries lo hi limit
        ++ (scanAscending entries lo hi).drop limit = scanAscending entries lo hi
    ∧ (scanLimitDescending entries lo hi limit).length ≤ limit
    ∧ scanLimitDescending entries lo hi limit
        ++ (scanDescending entries lo hi).drop limit = scanDescending entries lo hi := by
  have hsub : List.Sublist ((entries.filter (inRange lo hi)).map IndexEntry.key)
      (entries.map IndexEntry.key) :=
    List.Sublist.map _ (List.filter_sublist _)
  have hsorted : ((entries.filter (inRange lo hi)).map IndexEntry.key).Sorted (· ≤ ·) :=
    List.Pairwise.sublist hsub hs
  refine ⟨?_, hsorted, rfl, ?_, ?_, ?_, ?_, ?_⟩
  · intro s
    simp only [scanAscending, List.mem_map, List.mem_filter, inRange, decide_eq_true_eq]
    constructor
    · rintro ⟨e, ⟨he, hlo, hhi⟩, hslot⟩
      exact ⟨e, he, hlo, hhi, hslot⟩
    · rintro ⟨e, he, hlo, hhi, hslot⟩
      exact ⟨e, ⟨he, hlo, hhi⟩, hslot⟩
  · exact List.pairwise_reverse.mpr hsorted
  · exact List.length_take_le limit _
  · exact List.take_append_drop limit _
  · exact List.length_take_le limit _
  · exact List.take_append_drop limit _

/-- Witness for C2 at the even-key index of the repository's scan tests with
the window [8, 12] and limit 2. -/
theorem scan_ordering_contract_witness :
    (evenKeyIndex.map IndexEntry.key).Sorted (· ≤ ·)
    ∧ scanDescending evenKeyIndex 8 12 = (scanAscending evenKeyIndex 8 12).reverse :=
  ⟨by decide, (scan_ordering_contract evenKeyIndex 8 12 2 (by decide)).2.2.1⟩

/-! ## MVCC visibility (spec section 3 and 4.6) -/

/-- Modelled from the spec: the MVCC version machinery (transaction context,
undo records) is not under src/. A version carries the id of the writing
transaction, whether that write has committed, the begin timestamp assigned
at commit, and the end timestamp (a large value standing for infinity while
no newer version supersedes it). -/
structure Version : Type where
  writer : Nat
  committed : Bool
  beginTs : Nat
  endTs : Nat
  deriving DecidableEq, Repr

/-- Transaction context: id and snapshot start timestamp. -/
structure TxnCtx : Type where
  txnId : Nat
  startTs : Nat
  deriving DecidableEq, Repr

/-- Modelled from the spec (section 3): a committed version v is visible to
txn T iff v.begin_ts le T.start_ts < v.end_ts; writes by T itself are always
visible to T; an uncommitted version is visible only to its writer. -/
def visibleTo (t : TxnCtx) (v : Version) : Bool :=
  (v.committed && decide (v.beginTs ≤ t.startTs) && decide (t.startTs < v.endTs))
    || (v.writer == t.txnId)

/-- Index entry together with the version of the underlying tuple. -/
structure VersionedEntry : Type where
  key : Int
  slot : Nat
  ver : Version
  deriving DecidableEq, Repr

/-- Modelled from the spec (4.7 scan visibility): ScanKey returns the slots of
entries with the given key whose underlying version is visible to the
scanning transaction. -/
def scanKey (t : TxnCtx) (k : Int) (entries : List VersionedEntry) : List Nat :=
  (entries.filter (fun e => decide (e.key = k) && visibleTo t e.ver)).map
    (fun e => e.slot)

/-- Transactions of the CommitInsert1 scenario (bwtree_index_test.cpp lines
548-591): txn A starts at 1, txn B at 2 (before A commits at 3), txn C at 4
(after A commits). -/
def txnA : TxnCtx := ⟨10, 1⟩

def txnB : TxnCtx := ⟨11, 2⟩

def txnC : TxnCtx := ⟨12, 4⟩

/-- Index contents after A inserts key 15721 at slot 7, before A commits. -/
def entriesPending : List VersionedEntry := [⟨15721, 7, ⟨10, false, 0, 1000000⟩⟩]

/-- Index contents after A commits at timestamp 3. -/
def entriesCommitted : List VersionedEntry := [⟨15721, 7, ⟨10, true, 3, 1000000⟩⟩]

/-! ## Claim C4 -/

/-- C4: a version visible to a reading transaction satisfies
begin_ts le start_ts < end_ts unless it is the reader's own write, and own
writes are always visible; concretely, in the CommitInsert1 scenario A sees
its own uncommitted insert, B (which started before A committed) sees nothing
both before and after A's commit, and C (which started after A committed)
sees exactly the inserted slot. -/
theorem visibility_contract :
    (∀ (t : TxnCtx) (v : Version), visibleTo t v = true →
        (v.beginTs ≤ t.startTs ∧ t.startTs < v.endTs) ∨ v.writer = t.txnId)
    ∧ (∀ (t : TxnCtx) (v : Version), v.writer = t.txnId → visibleTo t v = true)
    ∧ scanKey txnA 15721 entriesPending = [7]
    ∧ scanKey txnB 15721 entriesPending = []
    ∧ scanKey txnB 15721 entriesCommitted = []
    ∧ scanKey txnC 15721 entriesCommitted = [7] := by
  refine ⟨?_, ?_, rfl, rfl, rfl, rfl⟩
  · intro t v h
    simp only [visibleTo, Bool.or_eq_true, Bool.and_eq_true, decide_eq_true_eq,
      beq_iff_eq] at h
    rcases h with ⟨⟨_, h1⟩, h2⟩ | h
    · exact Or.inl ⟨h1, h2⟩
    · exact Or.inr h
  · intro t v h
    simp [visibleTo, h]

/-- Witness for C4: txn A's own pending write is visible to A. -/
theorem visibility_contract_witness :
    visibleTo txnA ⟨10, false, 0, 1000000⟩ = true :=
  visibility_contract.2.1 txnA ⟨10, false, 0, 1000000⟩ rfl

/-! ## Unique-key insert contract (spec section 4.7) -/

/-- Status of a transaction. -/
inductive TxnStatus : Type
  | active
  | committed
  | aborted
  deriving DecidableEq, Repr

/-- Modelled from the spec: the unique BwTree index implementation is not
under src/ (only its test, bwtree_index_test.cpp lines 118-184). The state of
one unique-index key under concurrent inserters: owner is the transaction
that installed the latest version of the key (writers serialize through CAS,
so installations are atomic), statusOf the per-transaction status, and wonKey
records which transactions have had InsertUnique return true for the key. -/
structure KeyState : Type where
  owner : Option Nat
  statusOf : Nat → TxnStatus
  wonKey : Nat → Bool

/-- State before any transaction has touched the key. -/
def initialKeyState : KeyState :=
  ⟨none, fun _ => TxnStatus.active, fun _ => false⟩

/-- Check for a visible-or-pending version of the key: the latest installed
version exists and its writer has not aborted (spec open question (c): a
version left by an aborted writer does not block a new insert). -/
def hasLiveVersion (s : KeyState) : Bool :=
  match s.owner with
  | none => false
  | some u => decide (s.statusOf u ≠ TxnStatus.aborted)

/-- Modelled from the spec (unique-key contract): InsertUnique returns true
iff no visible-or-pending version of the key exists for a transaction not
aborted; on success the caller becomes the owner, on failure the caller
aborts its transaction (as the UniqueInsert test does). -/
def insertUnique (s : KeyState) (t : Nat) : Bool × KeyState :=
  if hasLiveVersion s then
    (false, { s with statusOf := fun u => if u = t then TxnStatus.aborted else s.statusOf u })
  else
    (true,
     { owner := some t
       statusOf := s.statusOf
       wonKey := fun u => if u = t then true else s.wonKey u })

/-- Commit of an active transaction; a no-op otherwise. -/
def commitTxn (s : KeyState) (t : Nat) : KeyState :=
  if s.statusOf t = TxnStatus.active then
    { s with statusOf := fun u => if u = t then TxnStatus.committed else s.statusOf u }
  else s

/-- Abort of an active transaction; a no-op otherwise. -/
def abortTxn (s : KeyState) (t : Nat) : KeyState :=
  if s.statusOf t = TxnStatus.active then
    { s with statusOf := fun u => if u = t then TxnStatus.aborted else s.statusOf u }
  else s

/-- Atomic events of the concurrent inserters on one key: an InsertUnique
attempt (aborting the caller when it fails), a commit, or an abort. An
interleaved execution of N threads is an arbitrary list of such events. -/
inductive KeyEvent : Type
  | insert (t : Nat)
  | commit (t : Nat)
  | abort (t : Nat)
  deriving DecidableEq, Repr

/-- One event step. -/
def applyEvent (s : KeyState) (e : KeyEvent) : KeyState :=
  match e with
  | KeyEvent.insert t => (insertUnique s t).2
  | KeyEvent.commit t => commitTxn s t
  | KeyEvent.abort t => abortTxn s t

/-- State after an interleaved execution. -/
def runEvents (evs : List KeyEvent) : KeyState :=
  evs.foldl applyEvent initialKeyState

/-- Invariant tying winners to the owner: a winner that has not aborted is
the current owner, and the owner has won. -/
def KeyInv (s : KeyState) : Prop :=
  (∀ t, s.wonKey t = true → s.statusOf t ≠ TxnStatus.aborted → s.owner = some t)
  ∧ (∀ u, s.owner = some u → s.wonKey u = true)

theorem initialKeyState_inv : KeyInv initialKeyState := by
  constructor
  · intro t h
    simp [initialKeyState] at h
  · intro u h
    simp [initialKeyState] at h

theorem applyEvent_inv (s : KeyState) (e : KeyEvent) (h : KeyInv s) :
    KeyInv (applyEvent s e) := by
  obtain ⟨h1, h2⟩ := h
  cases e with
  | insert t =>
      simp only [applyEvent, insertUnique]
      by_cases hl : hasLiveVersion s
      · simp only [hl, if_true]
        constructor
        · intro w hw hst
          by_cases hwt : w = t
          · subst hwt
            simp at hst
          · simp only [hwt, if_neg] at hst
            exact h1 w hw (by simpa [hwt] using hst)
        · intro u hu
          exact h2 u hu
      · simp only [hl, if_false]
        constructor
        · intro w hw hst
          by_cases hwt : w = t
          · subst hwt; rfl
          · exfalso
            simp [hwt] at hw
            have hown := h1 w hw hst
            simp only [hasLiveVersion, hown, decide_eq_true_eq] at hl
            exact hl hst
        · intro u hu
          simp at hu
          subst hu
          simp
  | commit t =>
      simp only [applyEvent, commitTxn]
      by_cases ha : s.statusOf t = TxnStatus.active
      · simp only [ha, if_true]
        constructor
        · intro w hw hst
          by_cases hwt : w = t
          · subst hwt
            exact h1 w hw (by rw [ha]; intro hc; cases hc)
          · simp only [hwt, if_neg] at hst
            exact h1 w hw (by simpa [hwt] using hst)
        · intro u hu
          exact h2 u hu
      · simp only [ha, if_false]
        exact ⟨h1, h2⟩
  | abort t =>
      simp only [applyEvent, abortTxn]
      by_cases ha : s.statusOf t = TxnStatus.active
      · simp only [ha, if_true]
        constructor
        · intro w hw hst
          by_cases hwt : w = t
          · subst hwt
            simp at hst
          · simp only [hwt, if_neg] at hst
            exact h1 w hw (by simpa [hwt] using hst)
        · intro u hu
          exact h2 u hu
      · simp only [ha, if_false]
        exact ⟨h1, h2⟩

theorem foldl_inv : ∀ (evs : List KeyEvent) (s : KeyState), KeyInv s →
    KeyInv (evs.foldl applyEvent s) := by
  intro evs
  induction evs with
  | nil => intro s h; exact h
  | cons e rest ih =>
      intro s h
      exact ih (applyEvent s e) (applyEvent_inv s e h)

theorem runEvents_inv (evs : List KeyEvent) : KeyInv (runEvents evs) :=
  foldl_inv evs initialKeyState initialKeyState_inv

/-- Some transaction keeps a recorded win after any further events, once one
exists or an insert event occurs. -/
theorem foldl_winner : ∀ (evs : List KeyEvent) (s : KeyState), KeyInv s →
    ((∃ t, KeyEvent.insert t ∈ evs) ∨ ∃ w, s.wonKey w = true) →
    ∃ w, (evs.foldl applyEvent s).wonKey w = true := by
  intro evs
  induction evs with
  | nil =>
      intro s _ h
      rcases h with ⟨t, ht⟩ | hw
      · simp at ht
      · exact hw
  | cons e rest ih =>
      intro s hinv h
      have hinv2 := applyEvent_inv s e hinv
      rcases h with ⟨t, ht⟩ | ⟨w, hw⟩
      · rcases List.mem_cons.mp ht with heq | hmem
        · subst heq
          apply ih _ hinv2
          right
          simp only [applyEvent, insertUnique]
          by_cases hl : hasLiveVersion s
          · simp only [hl, if_true]
            rcases hown : s.owner with _ | u
            · simp [hasLiveVersion, hown] at hl
            · refine ⟨u, ?_⟩
              exact hinv.2 u hown
          · simp only [hl, if_false]
            exact ⟨t, by simp⟩
        · exact ih _ hinv2 (Or.inl ⟨t, hmem⟩)
      · apply ih _ hinv2
        right
        refine ⟨w, ?_⟩
        cases e with
        | insert t =>
            simp only [applyEvent, insertUnique]
            by_cases hl : hasLiveVersion s
            · simpa [hl]
            · simp only [hl, if_false]
              by_cases hwt : w = t <;> simp [hwt, hw]
        | commit t => simpa [applyEvent, commitTxn] using (by split <;> simp [hw])
        | abort t => simpa [applyEvent, abortTxn] using (by split <;> simp [hw])

/-! ## Claim C3 -/

/-- C3: InsertUnique returns true iff no visible-or-pending version of the
key exists for a transaction not aborted; over every interleaved execution of
concurrent inserters on one key, at most one transaction both wins and
commits, at most one winner survives unaborted (so exactly one survives if
any does), and as soon as any insert was attempted some transaction holds a
recorded win - per key, the four-thread UniqueInsert workload therefore
leaves exactly one committed inserter. -/
theorem insertUnique_contract :
    (∀ (s : KeyState) (t : Nat),
        (insertUnique s t).1 = true ↔
          ¬ ∃ u, s.owner = some u ∧ s.statusOf u ≠ TxnStatus.aborted)
    ∧ (∀ (evs : List KeyEvent) (t1 t2 : Nat),
        (runEvents evs).wonKey t1 = true → (runEvents evs).statusOf t1 = TxnStatus.committed →
        (runEvents evs).wonKey t2 = true → (runEvents evs).statusOf t2 = TxnStatus.committed →
        t1 = t2)
    ∧ (∀ (evs : List KeyEvent) (t1 t2 : Nat),
        (runEvents evs).wonKey t1 = true → (runEvents evs).statusOf t1 ≠ TxnStatus.aborted →
        (runEvents evs).wonKey t2 = true → (runEvents evs).statusOf t2 ≠ TxnStatus.aborted →
        t1 = t2)
    ∧ (∀ (evs : List KeyEvent) (t : Nat), KeyEvent.insert t ∈ evs →
        ∃ w, (runEvents evs).wonKey w = true) := by
  have hsurvive : ∀ (evs : List KeyEvent) (t1 t2 : Nat),
      (runEvents evs).wonKey t1 = true → (runEvents evs).statusOf t1 ≠ TxnStatus.aborted →
      (runEvents evs).wonKey t2 = true → (runEvents evs).statusOf t2 ≠ TxnStatus.aborted →
      t1 = t2 := by
    intro evs t1 t2 hw1 hs1 hw2 hs2
    have hinv := runEvents_inv evs
    have h1 := hinv.1 t1 hw1 hs1
    have h2 := hinv.1 t2 hw2 hs2
    rw [h1] at h2
    exact Option.some.inj h2
  refine ⟨?_, ?_, hsurvive, ?_⟩
  · intro s t
    simp only [insertUnique]
    by_cases hl : hasLiveVersion s
    · simp only [hl, if_true]
      constructor
      · intro h; cases h
      · intro h
        exfalso
        apply h
        rcases hown : s.owner with _ | u
        · simp [hasLiveVersion, hown] at hl
        · refine ⟨u, rfl, ?_⟩
          simpa [hasLiveVersion, hown] using hl
    · simp only [hl, if_false]
      constructor
      · intro _ hex
        rcases hex with ⟨u, hu, hst⟩
        simp [hasLiveVersion, hu, hst] at hl
      · intro _; rfl
  · intro evs t1 t2 hw1 hs1 hw2 hs2
    apply hsurvive evs t1 t2 hw1 _ hw2 _
    · rw [hs1]; intro hc; cases hc
    · rw [hs2]; intro hc; cases hc
  · intro evs t hmem
    exact foldl_winner evs initialKeyState initialKeyState_inv (Or.inl ⟨t, hmem⟩)

/-- Witness for C3 at the two-transaction interleaving where txn 0 inserts
and commits, then txn 1 attempts the same key and fails. -/
theorem insertUnique_contract_witness :
    (runEvents [KeyEvent.insert 0, KeyEvent.commit 0, KeyEvent.insert 1]).wonKey 0 = true
    ∧ (0 : Nat) = 0 :=
  ⟨rfl,
   insertUnique_contract.2.1 [KeyEvent.insert 0, KeyEvent.commit 0, KeyEvent.insert 1] 0 0
     rfl rfl rfl rfl⟩

/-! ## Pipeline breaker structure and ordering (compiler.cpp MakePipelines) -/

/-- Plan node reached by a path of child indices (0 = first child, 1 = second
child). -/
def nodeAt : PlanNode → List Nat → Option PlanNode
  | n, [] => some n
  | PlanNode.aggregate c, 0 :: q => nodeAt c q
  | PlanNode.orderby c, 0 :: q => nodeAt c q
  | PlanNode.hashjoin l _, 0 :: q => nodeAt l q
  | PlanNode.hashjoin _ r, 1 :: q => nodeAt r q
  | PlanNode.nestloop l _, 0 :: q => nodeAt l q
  | PlanNode.nestloop _ r, 1 :: q => nodeAt r q
  | PlanNode.unary c, 0 :: q => nodeAt c q
  | _, _ => none

/-- Pipeline breakers: the node kinds at which MakePipelines pushes a new
pipeline (AGGREGATE, ORDERBY, HASHJOIN). -/
def isBreaker : PlanNode → Bool
  | PlanNode.aggregate _ => true
  | PlanNode.orderby _ => true
  | PlanNode.hashjoin _ _ => true
  | _ => false

/-- Build-side translator of a breaker node: the bottom translator for
AGGREGATE and ORDERBY, the left translator for HASHJOIN. -/
def buildTranslator (b : PlanNode) (q : List Nat) : Translator :=
  match b with
  | PlanNode.hashjoin _ _ => ⟨q, Role.left⟩
  | _ => ⟨q, Role.bottom⟩

/-- Probe-side translator of a breaker node: the top translator for AGGREGATE
and ORDERBY, the right translator for HASHJOIN. -/
def probeTranslator (b : PlanNode) (q : List Nat) : Translator :=
  match b with
  | PlanNode.hashjoin _ _ => ⟨q, Role.right⟩
  | _ => ⟨q, Role.top⟩

theorem buildTranslator_path (b : PlanNode) (q : List Nat) :
    (buildTranslator b q).path = q := by
  cases b <;> rfl

theorem probeTranslator_path (b : PlanNode) (q : List Nat) :
    (probeTranslator b q).path = q := by
  cases b <;> rfl

/-- p is a prefix of the path q. -/
def pathExt (p q : List Nat) : Prop := ∃ s, q = p ++ s

theorem pathExt_refl (p : List Nat) : pathExt p p := ⟨[], by simp⟩

theorem pathExt_here (p s : List Nat) : pathExt p (p ++ s) := ⟨s, rfl⟩

theorem pathExt_child (p : List Nat) (k : Nat) (q : List Nat) :
    pathExt (p ++ [k]) q → pathExt p q := by
  rintro ⟨s, rfl⟩
  exact ⟨[k] ++ s, by simp⟩

theorem pathExt_ne (p : List Nat) (k : Nat) (q : List Nat) (h : pathExt (p ++ [k]) q) :
    q ≠ p := by
  rintro rfl
  obtain ⟨s, hs⟩ := h
  have hlen := congrArg List.length hs
  simp at hlen

theorem pathExt_branch (p q : List Nat) (j k : Nat) (hj : pathExt (p ++ [j]) q)
    (hk : pathExt (p ++ [k]) q) : j = k := by
  obtain ⟨s1, e1⟩ := hj
  obtain ⟨s2, e2⟩ := hk
  rw [e1] at e2
  simp only [List.append_assoc, List.singleton_append] at e2
  have := List.append_cancel_left e2
  exact (List.cons.injEq _ _ _ _ ▸ this).1

/-- Every translator placed by MakePipelines into the current pipeline of the
subtree at path p carries a path extending p. -/
theorem mem_mpCurr_pathExt : ∀ (n : PlanNode) (p : List Nat) (t : Translator),
    t ∈ mpCurr n p → pathExt p t.path := by
  intro n
  induction n with
  | aggregate c ih =>
      intro p t ht
      simp only [mpCurr, List.mem_singleton] at ht
      subst ht
      exact pathExt_refl p
  | orderby c ih =>
      intro p t ht
      simp only [mpCurr, List.mem_singleton] at ht
      subst ht
      exact pathExt_refl p
  | hashjoin l r ihl ihr =>
      intro p t ht
      simp only [mpCurr, List.mem_append, List.mem_singleton] at ht
      rcases ht with ht | ht
      · exact pathExt_child p 1 t.path (ihr (p ++ [1]) t ht)
      · subst ht
        exact pathExt_refl p
  | nestloop l r ihl ihr =>
      intro p t ht
      simp only [mpCurr, List.mem_append, List.mem_singleton] at ht
      rcases ht with ht | ht | ht | ht
      · exact pathExt_child p 0 t.path (ihl (p ++ [0]) t ht)
      · subst ht
        exact pathExt_refl p
      · exact pathExt_child p 1 t.path (ihr (p ++ [1]) t ht)
      · subst ht
        exact pathExt_refl p
  | unary c ih =>
      intro p t ht
      simp only [mpCurr, List.mem_append, List.mem_singleton] at ht
      rcases ht with ht | ht
      · exact pathExt_child p 0 t.path (ih (p ++ [0]) t ht)
      · subst ht
        exact pathExt_refl p
  | leaf =>
      intro p t ht
      simp only [mpCurr, List.mem_singleton] at ht
      subst ht
      exact pathExt_refl p

/-- Every translator placed by MakePipelines into a pushed pipeline of the
subtree at path p carries a path extending p. -/
theorem mem_mpAcc_pathExt : ∀ (n : PlanNode) (p : List Nat) (pl : List Translator)
    (t : Translator), pl ∈ mpAcc n p → t ∈ pl → pathExt p t.path := by
  intro n
  induction n with
  | aggregate c ih =>
      intro p pl t hpl ht
      simp only [mpAcc, List.mem_append, List.mem_singleton] at hpl
      rcases hpl with hpl | hpl
      · exact pathExt_child p 0 t.path (ih (p ++ [0]) pl t hpl ht)
      · subst hpl
        simp only [List.mem_append, List.mem_singleton] at ht
        rcases ht with ht | ht
        · exact pathExt_child p 0 t.path (mem_mpCurr_pathExt c (p ++ [0]) t ht)
        · subst ht
          exact pathExt_refl p
  | orderby c ih =>
      intro p pl t hpl ht
      simp only [mpAcc, List.mem_append, List.mem_singleton] at hpl
      rcases hpl with hpl | hpl
      · exact pathExt_child p 0 t.path (ih (p ++ [0]) pl t hpl ht)
      · subst hpl
        simp only [List.mem_append, List.mem_singleton] at ht
        rcases ht with ht | ht
        · exact pathExt_child p 0 t.path (mem_mpCurr_pathExt c (p ++ [0]) t ht)
        · subst ht
          exact pathExt_refl p
  | hashjoin l r ihl ihr =>
      intro p pl t hpl ht
      simp only [mpAcc, List.mem_append, List.mem_singleton] at hpl
      rcases hpl with hpl | hpl | hpl
      · exact pathExt_child p 0 t.path (ihl (p ++ [0]) pl t hpl ht)
      · subst hpl
        simp only [List.mem_append, List.mem_singleton] at ht
        rcases ht with ht | ht
        · exact pathExt_child p 0 t.path (mem_mpCurr_pathExt l (p ++ [0]) t ht)
        · subst ht
          exact pathExt_refl p
      · exact pathExt_child p 1 t.path (ihr (p ++ [1]) pl t hpl ht)
  | nestloop l r ihl ihr =>
      intro p pl t hpl ht
      simp only [mpAcc, List.mem_append] at hpl
      rcases hpl with hpl | hpl
      · exact pathExt_child p 0 t.path (ihl (p ++ [0]) pl t hpl ht)
      · exact pathExt_child p 1 t.path (ihr (p ++ [1]) pl t hpl ht)
  | unary c ih =>
      intro p pl t hpl ht
      simp only [mpAcc] at hpl
      exact pathExt_child p 0 t.path (ih (p ++ [0]) pl t hpl ht)
  | leaf =>
      intro p pl t hpl ht
      simp [mpAcc] at hpl

/-- Membership of a translator in the pipeline at index i of a pipelines
vector. -/
def memPipeAt (ps : List (List Translator)) (t : Translator) (i : Nat) : Prop :=
  ∃ pl, ps[i]? = some pl ∧ t ∈ pl

theorem memPipeAt_lt (ps : List (List Translator)) (t : Translator) (i : Nat)
    (h : memPipeAt ps t i) : i < ps.length := by
  obtain ⟨pl, hpl, _⟩ := h
  exact List.getElem?_eq_some.mp hpl |>.1

theorem memPipeAt_mem (ps : List (List Translator)) (t : Translator) (i : Nat)
    (h : memPipeAt ps t i) : ∃ pl ∈ ps, t ∈ pl := by
  obtain ⟨pl, hpl, ht⟩ := h
  exact ⟨pl, List.getElem?_mem hpl, ht⟩

theorem memPipeAt_append (xs ys : List (List Translator)) (t : Translator) (i : Nat) :
    memPipeAt (xs ++ ys) t i ↔
      (i < xs.length ∧ memPipeAt xs t i)
      ∨ (xs.length ≤ i ∧ memPipeAt ys t (i - xs.length)) := by
  constructor
  · rintro ⟨pl, hpl, ht⟩
    by_cases hi : i < xs.length
    · left
      refine ⟨hi, pl, ?_, ht⟩
      rw [List.getElem?_append, if_pos hi] at hpl
      exact hpl
    · right
      refine ⟨Nat.le_of_not_lt hi, pl, ?_, ht⟩
      rw [List.getElem?_append_right (Nat.le_of_not_lt hi)] at hpl
      exact hpl
  · rintro (⟨hi, pl, hpl, ht⟩ | ⟨hi, pl, hpl, ht⟩)
    · exact ⟨pl, by rw [List.getElem?_append, if_pos hi]; exact hpl, ht⟩
    · exact ⟨pl, by rw [List.getElem?_append_right hi]; exact hpl, ht⟩

theorem memPipeAt_singleton (pl : List Translator) (t : Translator) (i : Nat) :
    memPipeAt [pl] t i ↔ i = 0 ∧ t ∈ pl := by
  constructor
  · rintro ⟨pl2, hpl, ht⟩
    have hi : i < 1 := by
      have := List.getElem?_eq_some.mp hpl
      simpa using this.1
    interval_cases i
    simp only [List.getElem?_cons_zero, Option.some.injEq] at hpl
    subst hpl
    exact ⟨rfl, ht⟩
  · rintro ⟨rfl, ht⟩
    exact ⟨pl, rfl, ht⟩

theorem mpCurr_path_ne (n : PlanNode) (p : List Nat) (k : Nat) (t : Translator)
    (ht : t ∈ mpCurr n (p ++ [k])) (hp : t.path = p) : False :=
  pathExt_ne p k t.path (mem_mpCurr_pathExt n (p ++ [k]) t ht) hp

theorem mpAcc_path_ne (n : PlanNode) (p : List Nat) (k : Nat) (pl : List Translator)
    (t : Translator) (hpl : pl ∈ mpAcc n (p ++ [k])) (ht : t ∈ pl) (hp : t.path = p) : False :=
  pathExt_ne p k t.path (mem_mpAcc_pathExt n (p ++ [k]) pl t hpl ht) hp

theorem mpCurr_branch (n : PlanNode) (p : List Nat) (k j : Nat) (rest : List Nat)
    (t : Translator) (ht : t ∈ mpCurr n (p ++ [k])) (hp : t.path = (p ++ [j]) ++ rest)
    (hjk : j ≠ k) : False := by
  have h1 := mem_mpCurr_pathExt n (p ++ [k]) t ht
  have h2 : pathExt (p ++ [j]) t.path := hp ▸ pathExt_here _ _
  exact hjk (pathExt_branch p t.path j k h2 h1)

theorem mpAcc_branch (n : PlanNode) (p : List Nat) (k j : Nat) (rest : List Nat)
    (pl : List Translator) (t : Translator) (hpl : pl ∈ mpAcc n (p ++ [k])) (ht : t ∈ pl)
    (hp : t.path = (p ++ [j]) ++ rest) (hjk : j ≠ k) : False := by
  have h1 := mem_mpAcc_pathExt n (p ++ [k]) pl t hpl ht
  have h2 : pathExt (p ++ [j]) t.path := hp ▸ pathExt_here _ _
  exact hjk (pathExt_branch p t.path j k h2 h1)

theorem append_cons_eq (p : List Nat) (k : Nat) (rest : List Nat) :
    p ++ (k :: rest) = (p ++ [k]) ++ rest := by simp

/-- Placement of the build and probe translators of every breaker inside the
subtree walked by MakePipelines: the build translator never sits in the
current pipeline, and whenever both translators sit in pushed pipelines, the
build one is at a strictly smaller index. -/
theorem breaker_placement : ∀ (n : PlanNode) (p q2 : List Nat) (b : PlanNode),
    nodeAt n q2 = some b → isBreaker b = true →
    (buildTranslator b (p ++ q2) ∉ mpCurr n p)
    ∧ (∀ i j, memPipeAt (mpAcc n p) (buildTranslator b (p ++ q2)) i →
        memPipeAt (mpAcc n p) (probeTranslator b (p ++ q2)) j → i < j) := by
  intro n
  induction n with
  | aggregate c ih =>
      intro p q2 b hq hb
      rcases q2 with _ | ⟨_ | k, rest⟩
      · simp only [nodeAt, Option.some.injEq] at hq
        subst hq
        simp only [List.append_nil]
        constructor
        · intro hmem
          simp [mpCurr, buildTranslator] at hmem
        · intro i j _ hprobe
          exfalso
          simp only [mpAcc] at hprobe
          rw [memPipeAt_append] at hprobe
          rcases hprobe with ⟨_, hmem⟩ | ⟨_, hone⟩
          · obtain ⟨pl, hpl, hin⟩ := memPipeAt_mem _ _ _ hmem
            exact mpAcc_path_ne c p 0 pl _ hpl hin (probeTranslator_path _ _)
          · rw [memPipeAt_singleton] at hone
            rcases List.mem_append.mp hone.2 with hin | hin
            · exact mpCurr_path_ne c p 0 _ hin (probeTranslator_path _ _)
            · rw [List.mem_singleton] at hin
              simp [probeTranslator] at hin
      · simp only [nodeAt] at hq
        rw [append_cons_eq]
        obtain ⟨ih1, ih2⟩ := ih (p ++ [0]) rest b hq hb
        constructor
        · intro hmem
          simp only [mpCurr, List.mem_singleton] at hmem
          have hp2 : (buildTranslator b ((p ++ [0]) ++ rest)).path = p := by rw [hmem]
          rw [buildTranslator_path] at hp2
          exact pathExt_ne p 0 _ (pathExt_here _ _) hp2
        · intro i j hbuild hprobe
          simp only [mpAcc] at hbuild hprobe
          rw [memPipeAt_append] at hbuild hprobe
          rcases hbuild with ⟨hilt, hbi⟩ | ⟨_, hone⟩
          · rcases hprobe with ⟨_, hpj⟩ | ⟨hge, _⟩
            · exact ih2 i j hbi hpj
            · exact Nat.lt_of_lt_of_le hilt hge
          · exfalso
            rw [memPipeAt_singleton] at hone
            rcases List.mem_append.mp hone.2 with hin | hin
            · exact ih1 hin
            · rw [List.mem_singleton] at hin
              have hp2 : (buildTranslator b ((p ++ [0]) ++ rest)).path = p := by rw [hin]
              rw [buildTranslator_path] at hp2
              exact pathExt_ne p 0 _ (pathExt_here _ _) hp2
      · have hnone : nodeAt (PlanNode.aggregate c) ((k + 1) :: rest) = none := rfl
        rw [hnone] at hq
        cases hq
  | orderby c ih =>
      intro p q2 b hq hb
      rcases q2 with _ | ⟨_ | k, rest⟩
      · simp only [nodeAt, Option.some.injEq] at hq
        subst hq
        simp only [List.append_nil]
        constructor
        · intro hmem
          simp [mpCurr, buildTranslator] at hmem
        · intro i j _ hprobe
          exfalso
          simp only [mpAcc] at hprobe
          rw [memPipeAt_append] at hprobe
          rcases hprobe with ⟨_, hmem⟩ | ⟨_, hone⟩
          · obtain ⟨pl, hpl, hin⟩ := memPipeAt_mem _ _ _ hmem
            exact mpAcc_path_ne c p 0 pl _ hpl hin (probeTranslator_path _ _)
          · rw [memPipeAt_singleton] at hone
            rcases List.mem_append.mp hone.2 with hin | hin
            · exact mpCurr_path_ne c p 0 _ hin (probeTranslator_path _ _)
            · rw [List.mem_singleton] at hin
              simp [probeTranslator] at hin
      · simp only [nodeAt] at hq
        rw [append_cons_eq]
        obtain ⟨ih1, ih2⟩ := ih (p ++ [0]) rest b hq hb
        constructor
        · intro hmem
          simp only [mpCurr, List.mem_singleton] at hmem
          have hp2 : (buildTranslator b ((p ++ [0]) ++ rest)).path = p := by rw [hmem]
          rw [buildTranslator_path] at hp2
          exact pathExt_ne p 0 _ (pathExt_here _ _) hp2
        · intro i j hbuild hprobe
          simp only [mpAcc] at hbuild hprobe
          rw [memPipeAt_append] at hbuild hprobe
          rcases hbuild with ⟨hilt, hbi⟩ | ⟨_, hone⟩
          · rcases hprobe with ⟨_, hpj⟩ | ⟨hge, _⟩
            · exact ih2 i j hbi hpj
            · exact Nat.lt_of_lt_of_le hilt hge
          · exfalso
            rw [memPipeAt_singleton] at hone
            rcases List.mem_append.mp hone.2 with hin | hin
            · exact ih1 hin
            · rw [List.mem_singleton] at hin
              have hp2 : (buildTranslator b ((p ++ [0]) ++ rest)).path = p := by rw [hin]
              rw [buildTranslator_path] at hp2
              exact pathExt_ne p 0 _ (pathExt_here _ _) hp2
      · have hnone : nodeAt (PlanNode.orderby c) ((k + 1) :: rest) = none := rfl
        rw [hnone] at hq
        cases hq
  | hashjoin l r ihl ihr =>
      intro p q2 b hq hb
      rcases q2 with _ | ⟨_ | _ | k, rest⟩
      · simp only [nodeAt, Option.some.injEq] at hq
        subst hq
        simp only [List.append_nil]
        constructor
        · intro hmem
          simp only [mpCurr] at hmem
          rcases List.mem_append.mp hmem with hin | hin
          · exact mpCurr_path_ne r p 1 _ hin (buildTranslator_path _ _)
          · rw [List.mem_singleton] at hin
            simp [buildTranslator] at hin
        · intro i j _ hprobe
          exfalso
          simp only [mpAcc] at hprobe
          rw [memPipeAt_append] at hprobe
          rcases hprobe with ⟨_, hmem⟩ | ⟨_, hinner⟩
          · obtain ⟨pl, hpl, hin⟩ := memPipeAt_mem _ _ _ hmem
            exact mpAcc_path_ne l p 0 pl _ hpl hin (probeTranslator_path _ _)
          · rw [memPipeAt_append] at hinner
            rcases hinner with ⟨_, hone⟩ | ⟨_, hmem⟩
            · rw [memPipeAt_singleton] at hone
              rcases List.mem_append.mp hone.2 with hin | hin
              · exact mpCurr_path_ne l p 0 _ hin (probeTranslator_path _ _)
              · rw [List.mem_singleton] at hin
                simp [probeTranslator] at hin
            · obtain ⟨pl, hpl, hin⟩ := memPipeAt_mem _ _ _ hmem
              exact mpAcc_path_ne r p 1 pl _ hpl hin (probeTranslator_path _ _)
      · simp only [nodeAt] at hq
        rw [append_cons_eq]
        obtain ⟨ih1, ih2⟩ := ihl (p ++ [0]) rest b hq hb
        constructor
        · intro hmem
          simp only [mpCurr] at hmem
          rcases List.mem_append.mp hmem with hin | hin
          · exact mpCurr_branch r p 1 0 rest _ hin (buildTranslator_path _ _) (by omega)
          · rw [List.mem_singleton] at hin
            have hp2 : (buildTranslator b ((p ++ [0]) ++ rest)).path = p := by rw [hin]
            rw [buildTranslator_path] at hp2
            exact pathExt_ne p 0 _ (pathExt_here _ _) hp2
        · intro i j hbuild hprobe
          simp only [mpAcc] at hbuild hprobe
          rw [memPipeAt_append] at hbuild hprobe
          rcases hbuild with ⟨hilt, hbi⟩ | ⟨_, hinner⟩
          · rcases hprobe with ⟨_, hpj⟩ | ⟨hge, _⟩
            · exact ih2 i j hbi hpj
            · exact Nat.lt_of_lt_of_le hilt hge
          · exfalso
            rw [memPipeAt_append] at hinner
            rcases hinner with ⟨_, hone⟩ | ⟨_, hmem⟩
            · rw [memPipeAt_singleton] at hone
              rcases List.mem_append.mp hone.2 with hin | hin
              · exact ih1 hin
              · rw [List.mem_singleton] at hin
                have hp2 : (buildTranslator b ((p ++ [0]) ++ rest)).path = p := by rw [hin]
                rw [buildTranslator_path] at hp2
                exact pathExt_ne p 0 _ (pathExt_here _ _) hp2
            · obtain ⟨pl, hpl, hin⟩ := memPipeAt_mem _ _ _ hmem
              exact mpAcc_branch r p 1 0 rest pl _ hpl hin (buildTranslator_path _ _) (by omega)
      · simp only [nodeAt] at hq
        rw [append_cons_eq]
        obtain ⟨ih1, ih2⟩ := ihr (p ++ [1]) rest b hq hb
        constructor
        · intro hmem
          simp only [mpCurr] at hmem
          rcases List.mem_append.mp hmem with hin | hin
          · exact ih1 hin
          · rw [List.mem_singleton] at hin
            have hp2 : (buildTranslator b ((p ++ [1]) ++ rest)).path = p := by rw [hin]
            rw [buildTranslator_path] at hp2
            exact pathExt_ne p 1 _ (pathExt_here _ _) hp2
        · intro i j hbuild hprobe
          simp only [mpAcc] at hbuild hprobe
          rw [memPipeAt_append] at hbuild hprobe
          rcases hbuild with ⟨_, hmem⟩ | ⟨hgei, hinner⟩
          · exfalso
            obtain ⟨pl, hpl, hin⟩ := memPipeAt_mem _ _ _ hmem
            exact mpAcc_branch l p 0 1 rest pl _ hpl hin (buildTranslator_path _ _) (by omega)
          · rw [memPipeAt_append] at hinner
            rcases hinner with ⟨_, hone⟩ | ⟨hgei2, hbi⟩
            · exfalso
              rw [memPipeAt_singleton] at hone
              rcases List.mem_append.mp hone.2 with hin | hin
              · exact mpCurr_branch l p 0 1 rest _ hin (buildTranslator_path _ _) (by omega)
              · rw [List.mem_singleton] at hin
                have hp2 : (buildTranslator b ((p ++ [1]) ++ rest)).path = p := by rw [hin]
                rw [buildTranslator_path] at hp2
                exact pathExt_ne p 1 _ (pathExt_here _ _) hp2
            · rcases hprobe with ⟨_, hmem⟩ | ⟨hgej, hinnerp⟩
              · exfalso
                obtain ⟨pl, hpl, hin⟩ := memPipeAt_mem _ _ _ hmem
                exact mpAcc_branch l p 0 1 rest pl _ hpl hin (probeTranslator_path _ _) (by omega)
              · rw [memPipeAt_append] at hinnerp
                rcases hinnerp with ⟨_, hone⟩ | ⟨hgej2, hpj⟩
                · exfalso
                  rw [memPipeAt_singleton] at hone
                  rcases List.mem_append.mp hone.2 with hin | hin
                  · exact mpCurr_branch l p 0 1 rest _ hin (probeTranslator_path _ _) (by omega)
                  · rw [List.mem_singleton] at hin
                    have hp2 : (probeTranslator b ((p ++ [1]) ++ rest)).path = p := by rw [hin]
                    rw [probeTranslator_path] at hp2
                    exact pathExt_ne p 1 _ (pathExt_here _ _) hp2
                · have hlt := ih2 _ _ hbi hpj
                  simp only [List.length_singleton] at hgei2 hgej2
                  omega
      · have hnone : nodeAt (PlanNode.hashjoin l r) ((k + 2) :: rest) = none := rfl
        rw [hnone] at hq
        cases hq
  | nestloop l r ihl ihr =>
      intro p q2 b hq hb
      rcases q2 with _ | ⟨_ | _ | k, rest⟩
      · simp only [nodeAt, Option.some.injEq] at hq
        subst hq
        simp [isBreaker] at hb
      · simp only [nodeAt] at hq
        rw [append_cons_eq]
        obtain ⟨ih1, ih2⟩ := ihl (p ++ [0]) rest b hq hb
        constructor
        · intro hmem
          simp only [mpCurr] at hmem
          rcases List.mem_append.mp hmem with hin | hin
          · exact ih1 hin
          · rcases List.mem_append.mp hin with hin2 | hin2
            · rw [List.mem_singleton] at hin2
              have hp2 : (buildTranslator b ((p ++ [0]) ++ rest)).path = p := by rw [hin2]
              rw [buildTranslator_path] at hp2
              exact pathExt_ne p 0 _ (pathExt_here _ _) hp2
            · rcases List.mem_append.mp hin2 with hin3 | hin3
              · exact mpCurr_branch r p 1 0 rest _ hin3 (buildTranslator_path _ _) (by omega)
              · rw [List.mem_singleton] at hin3
                have hp2 : (buildTranslator b ((p ++ [0]) ++ rest)).path = p := by rw [hin3]
                rw [buildTranslator_path] at hp2
                exact pathExt_ne p 0 _ (pathExt_here _ _) hp2
        · intro i j hbuild hprobe
          simp only [mpAcc] at hbuild hprobe
          rw [memPipeAt_append] at hbuild hprobe
          rcases hbuild with ⟨hilt, hbi⟩ | ⟨_, hmem⟩
          · rcases hprobe with ⟨_, hpj⟩ | ⟨hge, hmem⟩
            · exact ih2 i j hbi hpj
            · exfalso
              obtain ⟨pl, hpl, hin⟩ := memPipeAt_mem _ _ _ hmem
              exact mpAcc_branch r p 1 0 rest pl _ hpl hin (probeTranslator_path _ _) (by omega)
          · exfalso
            obtain ⟨pl, hpl, hin⟩ := memPipeAt_mem _ _ _ hmem
            exact mpAcc_branch r p 1 0 rest pl _ hpl hin (buildTranslator_path _ _) (by omega)
      · simp only [nodeAt] at hq
        rw [append_cons_eq]
        obtain ⟨ih1, ih2⟩ := ihr (p ++ [1]) rest b hq hb
        constructor
        · intro hmem
          simp only [mpCurr] at hmem
          rcases List.mem_append.mp hmem with hin | hin
          · exact mpCurr_branch l p 0 1 rest _ hin (buildTranslator_path _ _) (by omega)
          · rcases List.mem_append.mp hin with hin2 | hin2
            · rw [List.mem_singleton] at hin2
              have hp2 : (buildTranslator b ((p ++ [1]) ++ rest)).path = p := by rw [hin2]
              rw [buildTranslator_path] at hp2
              exact pathExt_ne p 1 _ (pathExt_here _ _) hp2
            · rcases List.mem_append.mp hin2 with hin3 | hin3
              · exact ih1 hin3
              · rw [List.mem_singleton] at hin3
                have hp2 : (buildTranslator b ((p ++ [1]) ++ rest)).path = p := by rw [hin3]
                rw [buildTranslator_path] at hp2
                exact pathExt_ne p 1 _ (pathExt_here _ _) hp2
        · intro i j hbuild hprobe
          simp only [mpAcc] at hbuild hprobe
          rw [memPipeAt_append] at hbuild hprobe
          rcases hbuild with ⟨_, hmem⟩ | ⟨hgei, hbi⟩
          · exfalso
            obtain ⟨pl, hpl, hin⟩ := memPipeAt_mem _ _ _ hmem
            exact mpAcc_branch l p 0 1 rest pl _ hpl hin (buildTranslator_path _ _) (by omega)
          · rcases hprobe with ⟨_, hmem⟩ | ⟨hgej, hpj⟩
            · exfalso
              obtain ⟨pl, hpl, hin⟩ := memPipeAt_mem _ _ _ hmem
              exact mpAcc_branch l p 0 1 rest pl _ hpl hin (probeTranslator_path _ _) (by omega)
            · have hlt := ih2 _ _ hbi hpj
              omega
      · have hnone : nodeAt (PlanNode.nestloop l r) ((k + 2) :: rest) = none := rfl
        rw [hnone] at hq
        cases hq
  | unary c ih =>
      intro p q2 b hq hb
      rcases q2 with _ | ⟨_ | k, rest⟩
      · simp only [nodeAt, Option.some.injEq] at hq
        subst hq
        simp [isBreaker] at hb
      · simp only [nodeAt] at hq
        rw [append_cons_eq]
        obtain ⟨ih1, ih2⟩ := ih (p ++ [0]) rest b hq hb
        constructor
        · intro hmem
          simp only [mpCurr] at hmem
          rcases List.mem_append.mp hmem with hin | hin
          · exact ih1 hin
          · rw [List.mem_singleton] at hin
            have hp2 : (buildTranslator b ((p ++ [0]) ++ rest)).path = p := by rw [hin]
            rw [buildTranslator_path] at hp2
            exact pathExt_ne p 0 _ (pathExt_here _ _) hp2
        · intro i j hbuild hprobe
          simp only [mpAcc] at hbuild hprobe
          exact ih2 i j hbuild hprobe
      · have hnone : nodeAt (PlanNode.unary c) ((k + 1) :: rest) = none := rfl
        rw [hnone] at hq
        cases hq
  | leaf =>
      intro p q2 b hq hb
      rcases q2 with _ | ⟨k, rest⟩
      · simp only [nodeAt, Option.some.injEq] at hq
        subst hq
        simp [isBreaker] at hb
      · have hnone : nodeAt PlanNode.leaf (k :: rest) = none := rfl
        rw [hnone] at hq
        cases hq

theorem compilerPipelines_eq (plan : PlanNode) (hasOut : Bool) :
    compilerPipelines plan hasOut =
      mpAcc plan [] ++
        [if hasOut then mpCurr plan [] ++ [⟨[], Role.output⟩] else mpCurr plan []] := by
  simp [compilerPipelines, makePipelines_eq]

/-! ## Claim C6 -/

/-- C6: MakePipelines splits exactly at pipeline breakers. An AGGREGATE or
ORDERBY node yields two translators: the top (scan) translator continues the
current pipeline while the bottom (build) translator terminates the freshly
walked child pipeline, which is pushed to the emitted pipelines vector (and by
C5 executes) before the pipeline holding the top translator. A HASHJOIN node
places its left (build) translator at the end of its own pushed pipeline
while its right (probe) translator continues the current pipeline. A NESTLOOP
node keeps both translators in the current pipeline and pushes nothing. -/
theorem pipeline_breaker_split (c l r : PlanNode) (p : List Nat)
    (curr : List Translator) (acc : List (List Translator)) :
    makePipelines (PlanNode.aggregate c) p curr acc =
      (curr ++ [⟨p, Role.top⟩],
       acc ++ (mpAcc c (p ++ [0]) ++ [mpCurr c (p ++ [0]) ++ [⟨p, Role.bottom⟩]]))
    ∧ makePipelines (PlanNode.orderby c) p curr acc =
      (curr ++ [⟨p, Role.top⟩],
       acc ++ (mpAcc c (p ++ [0]) ++ [mpCurr c (p ++ [0]) ++ [⟨p, Role.bottom⟩]]))
    ∧ makePipelines (PlanNode.hashjoin l r) p curr acc =
      (curr ++ (mpCurr r (p ++ [1]) ++ [⟨p, Role.right⟩]),
       acc ++ (mpAcc l (p ++ [0])
         ++ ([mpCurr l (p ++ [0]) ++ [⟨p, Role.left⟩]] ++ mpAcc r (p ++ [1]))))
    ∧ makePipelines (PlanNode.nestloop l r) p curr acc =
      (curr ++ (mpCurr l (p ++ [0])
         ++ ([⟨p, Role.left⟩] ++ (mpCurr r (p ++ [1]) ++ [⟨p, Role.right⟩]))),
       acc ++ (mpAcc l (p ++ [0]) ++ mpAcc r (p ++ [1]))) := by
  refine ⟨?_, ?_, ?_, ?_⟩ <;> rw [makePipelines_eq] <;> rfl

/-! ## Claim C5 -/

/-- C5: for every plan and every pipeline dependency edge - the pipeline
holding the build translator of a breaker node feeding the pipeline holding
its probe translator - the index of the build pipeline in the Compiler's
pipelines vector is strictly below the index of the probe pipeline, and the
emitted main function calls the pipeline functions in exactly that index
order, so every build pipeline runs to completion before its dependent
pipeline begins. -/
theorem pipeline_dependency_order (plan : PlanNode) (hasOut : Bool) (q : List Nat)
    (b : PlanNode) (hq : nodeAt plan q = some b) (hb : isBreaker b = true) (i j : Nat)
    (hbuild : memPipeAt (compilerPipelines plan hasOut) (buildTranslator b q) i)
    (hprobe : memPipeAt (compilerPipelines plan hasOut) (probeTranslator b q) j) :
    i < j
    ∧ genMainFunction (compilerPipelines plan hasOut) =
        [Stmt.declareVar "state", Stmt.callFn "setupFn"]
          ++ (List.range (compilerPipelines plan hasOut).length).map
              (fun k => Stmt.callFn (pipelineName k))
          ++ [Stmt.callFn "teardownFn", Stmt.returnVal 37] := by
  refine ⟨?_, rfl⟩
  obtain ⟨h1, h2⟩ := breaker_placement plan [] q b hq hb
  simp only [List.nil_append] at h1 h2
  rw [compilerPipelines_eq] at hbuild hprobe
  rw [memPipeAt_append] at hbuild hprobe
  rcases hbuild with ⟨hilt, hbi⟩ | ⟨_, hone⟩
  · rcases hprobe with ⟨_, hpj⟩ | ⟨hge, _⟩
    · exact h2 i j hbi hpj
    · exact Nat.lt_of_lt_of_le hilt hge
  · exfalso
    rw [memPipeAt_singleton] at hone
    have hin := hone.2
    by_cases ho : hasOut
    · rw [if_pos ho] at hin
      rcases List.mem_append.mp hin with hin2 | hin2
      · exact h1 hin2
      · rw [List.mem_singleton] at hin2
        cases b <;> simp [buildTranslator] at hin2
    · rw [if_neg ho] at hin
      exact h1 hin

/-- Witness for C5 at a HashJoin over two leaf scans: the build pipeline has
index 0, the probe (main) pipeline index 1. -/
theorem pipeline_dependency_order_witness :
    (0 : Nat) < (1 : Nat)
    ∧ genMainFunction (compilerPipelines (PlanNode.hashjoin PlanNode.leaf PlanNode.leaf) false) =
        [Stmt.declareVar "state", Stmt.callFn "setupFn"]
          ++ (List.range
              (compilerPipelines (PlanNode.hashjoin PlanNode.leaf PlanNode.leaf) false).length).map
              (fun k => Stmt.callFn (pipelineName k))
          ++ [Stmt.callFn "teardownFn", Stmt.returnVal 37] :=
  pipeline_dependency_order (PlanNode.hashjoin PlanNode.leaf PlanNode.leaf) false []
    (PlanNode.hashjoin PlanNode.leaf PlanNode.leaf) rfl rfl 0 1
    ⟨[⟨[0], Role.regular⟩, ⟨[], Role.left⟩], rfl, by decide⟩
    ⟨[⟨[1], Role.regular⟩, ⟨[], Role.right⟩], rfl, by decide⟩

end Terrier
